import Mathlib

/-!
A model of `EfficientBitReader.c`: the unpacker of 12-bit values (`unpack_bytes`), the tracker
of the largest and of the latest values (`insert`), and the two readouts of `main`, followed
by the properties proved about them.

The build constant `TOP_K` is a parameter `K` of the model; the source sets it to 32.
Array accesses and loops are checked: an access outside an array, or a loop that is still
running when its counter has used up the range of an unsigned char, is a `Fault`.
-/

namespace EfficientBitReader

/-- Macro TOP_K of the source (line 84). -/
def TOP_K : Nat := 32

/-- Ways in which an execution of the C code can go wrong. -/
inductive Fault where
  | index_out_of_bounds
  | loop_not_finished
deriving DecidableEq, Repr

/-- The global variables of the program (lines 91-102), together with the ghost field
inserted that logs, in call order, every argument insert was called with. -/
structure Globals where
  prev_msb : Nat
  bits_msb : Nat
  top_values : List Nat
  last_values : List Nat
  curr_idx : Nat
  last_idx : Nat
  inserted : List Nat
deriving DecidableEq, Repr

/-- Start of the program: zero-initialised globals; main clears top_values (lines 133-136). -/
def init (K : Nat) : Globals :=
  { prev_msb := 0, bits_msb := 0, top_values := List.replicate K 0,
    last_values := List.replicate K 0, curr_idx := 0, last_idx := 0, inserted := [] }

/-- Array read a[i]; faults when i is outside the array. -/
def load (a : List Nat) (i : Nat) : Except Fault Nat :=
  match a[i]? with
  | some v => .ok v
  | none => .error .index_out_of_bounds

/-- Array write a[i] = v; faults when i is outside the array. -/
def store (a : List Nat) (i v : Nat) : Except Fault (List Nat) :=
  if i < a.length then .ok (a.set i v) else .error .index_out_of_bounds

/-- Number of loop iterations granted to each loop of insert: its counter is an unsigned char
that only moves in one direction, so it cannot take more than 256 values. -/
def loop_fuel : Nat := 256

/-- The scan of lines 297-300: while (idx < curr_idx && top_values[idx] < val) idx = idx+1. -/
def find_position (top : List Nat) (curr_idx val : Nat) : Nat → Nat → Except Fault Nat
  | 0, _ => .error .loop_not_finished
  | fuel + 1, idx =>
    if idx < curr_idx then do
      let t ← load top idx
      if t < val then find_position top curr_idx val fuel ((idx + 1) % 256) else pure idx
    else pure idx

/-- The loop of lines 316-319: for (idx = curr_idx; idx > insert_idx; idx--)
top_values[idx] = top_values[idx-1]; the second argument is the current idx. -/
def shift_right (insert_idx : Nat) : Nat → Nat → List Nat → Except Fault (List Nat)
  | 0, _, _ => .error .loop_not_finished
  | fuel + 1, idx, top =>
    if idx > insert_idx then do
      let v ← load top (idx - 1)
      let top ← store top idx v
      shift_right insert_idx fuel ((idx + 255) % 256) top
    else pure top

/-- The loop of lines 328-331: for (idx = 0; idx < insert_idx; idx++)
top_values[idx] = top_values[idx+1]; the second argument is the current idx. -/
def shift_left (insert_idx : Nat) : Nat → Nat → List Nat → Except Fault (List Nat)
  | 0, _, _ => .error .loop_not_finished
  | fuel + 1, idx, top =>
    if idx < insert_idx then do
      let v ← load top (idx + 1)
      let top ← store top idx v
      shift_left insert_idx fuel ((idx + 1) % 256) top
    else pure top

/-- Lines 283-336 of insert: the update of top_values and curr_idx. -/
def insert_top (K : Nat) (s : Globals) (val : Nat) : Except Fault Globals :=
  if s.curr_idx = 0 then do
    let top ← store s.top_values s.curr_idx val
    pure { s with top_values := top, curr_idx := (s.curr_idx + 1) % 256 }
  else do
    let wanted ← if s.curr_idx < K then pure true else do
      let t ← load s.top_values 0
      pure (decide (t < val))
    if wanted then do
      let idx ← find_position s.top_values s.curr_idx val loop_fuel 0
      let insert_idx := if idx = K then (K + 255) % 256 else idx
      if s.curr_idx < K then do
        let top ← shift_right insert_idx loop_fuel s.curr_idx s.top_values
        let top ← store top insert_idx val
        pure { s with top_values := top, curr_idx := (s.curr_idx + 1) % 256 }
      else do
        let top ← shift_left insert_idx loop_fuel 0 s.top_values
        let top ← store top insert_idx val
        pure { s with top_values := top }
    else pure s

/-- Lines 338-341 of insert: the update of last_values and last_idx. -/
def insert_last (K : Nat) (s : Globals) (val : Nat) : Except Fault Globals := do
  let last ← store s.last_values s.last_idx val
  pure { s with last_values := last, last_idx := ((s.last_idx + 1) % K) % 256 }

/-- The function insert (lines 281-342). -/
def insert (K : Nat) (s : Globals) (val : Nat) : Except Fault Globals := do
  let s ← insert_top K { s with inserted := s.inserted ++ [val] } val
  insert_last K s val

/-- The function unpack_bytes (lines 235-278). -/
def unpack_bytes (K : Nat) (s : Globals) (byte : Nat) : Except Fault Globals :=
  if s.bits_msb = 0 then
    pure { s with prev_msb := byte, bits_msb := 8 }
  else if s.bits_msb = 4 then do
    let value := ((s.prev_msb <<< 8) ||| byte) % 65536
    let s ← insert K s value
    pure { s with prev_msb := 0, bits_msb := 0 }
  else if s.bits_msb = 8 then do
    let temp := s.prev_msb
    let mask := ((1 <<< 4) - 1) % 256
    let s := { s with prev_msb := byte &&& mask }
    let byte := byte >>> 4
    let value := ((temp <<< 4) ||| byte) % 65536
    let s ← insert K s value
    pure { s with bits_msb := 4 }
  else pure s

/-- The read loop of read_file (lines 225-228): unpack_bytes on every byte of the file. -/
def read_file (K : Nat) : Globals → List Nat → Except Fault Globals
  | s, [] => pure s
  | s, byte :: rest => do
    let s ← unpack_bytes K s byte
    read_file K s rest

/-- A run of calls insert(v) for the values v of a list, in order. -/
def insert_all (K : Nat) : Globals → List Nat → Except Fault Globals
  | s, [] => pure s
  | s, val :: rest => do
    let s ← insert K s val
    insert_all K s rest

/-- What a loop for (idx = lo; idx < hi; idx++) prints of a[idx]. -/
def printed (a : List Nat) (lo hi : Nat) : List Nat :=
  (a.take hi).drop lo

/-- The values main writes under the header of the sorted values (lines 157-171). -/
def top_readout (K : Nat) (s : Globals) : List Nat :=
  if s.curr_idx < K then printed s.top_values 0 s.curr_idx
  else printed s.top_values 0 K

/-- The values main writes under the header of the last values (lines 177-198). -/
def last_readout (K : Nat) (s : Globals) : List Nat :=
  if s.curr_idx < K then printed s.last_values 0 s.curr_idx
  else printed s.last_values s.last_idx K ++ printed s.last_values 0 s.last_idx

/-- Shape of the tracker part of the globals for a build with TOP_K = K: both arrays have K
slots, the two unsigned char cursors are in range, and K itself fits the unsigned char
counters of insert and main. -/
structure tracker_wf (K : Nat) (s : Globals) : Prop where
  K_pos : 0 < K
  K_small : K ≤ 255
  top_len : s.top_values.length = K
  last_len : s.last_values.length = K
  curr_le : s.curr_idx ≤ K
  last_lt : s.last_idx < K

/-- The integer a byte sequence spells when read big-endian (first byte most significant). -/
def big_endian (bytes : List Nat) : Nat :=
  bytes.foldl (fun acc b => acc * 256 + b) 0

/-- A tracker for K = 3 as the values 5, 1, 9 leave it: the Top-K array is full. -/
def state_three_of_three : Globals :=
  { prev_msb := 0, bits_msb := 0, top_values := [1, 5, 9], last_values := [5, 1, 9],
    curr_idx := 3, last_idx := 0, inserted := [5, 1, 9] }

/-- A tracker for K = 3 as the values 6, 2 leave it: one slot of the Top-K array is free. -/
def state_two_of_three : Globals :=
  { prev_msb := 0, bits_msb := 0, top_values := [2, 6, 0], last_values := [6, 2, 0],
    curr_idx := 2, last_idx := 2, inserted := [6, 2] }

deriving instance DecidableEq for Except

/-! Properties of the array helpers and of the three loops of insert. -/

@[simp] theorem ok_bind {α β : Type} (a : α) (f : α → Except Fault β) :
    (Except.ok a >>= f) = f a := rfl

@[simp] theorem error_bind {α β : Type} (e : Fault) (f : α → Except Fault β) :
    (Except.error e >>= f) = Except.error e := rfl

@[simp] theorem pure_eq_ok {α : Type} (a : α) : (pure a : Except Fault α) = Except.ok a := rfl

theorem load_ok (a : List Nat) (i : Nat) (h : i < a.length) : load a i = .ok (a.getD i 0) := by
  simp [load, List.getD, List.getElem?_eq_getElem h]

theorem store_ok (a : List Nat) (i v : Nat) (h : i < a.length) : store a i v = .ok (a.set i v) := by
  simp [store, h]

/-- Effect of one array assignment a[i] = a[k] on the list, as a splice. -/
theorem set_splice (a : List Nat) (i v : Nat) (h : i < a.length) :
    a.set i v = a.take i ++ v :: a.drop (i + 1) := by
  rw [List.set_eq_take_append_cons_drop, if_pos h]

theorem drop_getD_cons (a : List Nat) (i : Nat) (h : i < a.length) :
    a.drop i = a.getD i 0 :: a.drop (i + 1) := by
  rw [List.drop_eq_getElem_cons h]
  simp [List.getD, List.getElem?_eq_getElem h]

theorem take_succ_getD (a : List Nat) (i : Nat) (h : i < a.length) :
    a.take (i + 1) = a.take i ++ [a.getD i 0] := by
  rw [List.take_succ]
  simp [List.getD, List.getElem?_eq_getElem h]

theorem take_set_le (a : List Nat) (i v m : Nat) (h : m ≤ i) :
    (a.set i v).take m = a.take m := by
  rcases Nat.lt_or_ge i a.length with hi | hi
  · rw [set_splice a i v hi, List.take_append_of_le_length (by simp; omega), List.take_take]
    congr 1
    omega
  · rw [List.set_eq_of_length_le hi]

theorem drop_set_self (a : List Nat) (i v : Nat) (h : i < a.length) :
    (a.set i v).drop i = v :: a.drop (i + 1) := by
  rw [set_splice a i v h, List.drop_append_of_le_length (by simp; omega)]
  have : (List.take i a).length = i := by simp; omega
  rw [List.drop_eq_nil_of_le (by omega)]
  rfl

theorem shift_right_ok (j : Nat) :
    ∀ (fuel idx : Nat) (top : List Nat), j ≤ idx → idx < top.length → idx ≤ 255 →
      idx - j < fuel →
      shift_right j fuel idx top
        = .ok (top.take (j + 1) ++ (top.take idx).drop j ++ top.drop (idx + 1)) := by
  intro fuel
  induction fuel with
  | zero => intro idx top _ _ _ h; omega
  | succ fuel ih =>
    intro idx top hj hlen h255 hf
    unfold shift_right
    by_cases hgt : idx > j
    · obtain ⟨k, rfl⟩ : ∃ k, idx = k + 1 := ⟨idx - 1, by omega⟩
      have hm : (k + 1 + 255) % 256 = k := by omega
      simp only [hgt, if_true, Nat.add_sub_cancel, load_ok top k (by omega), ok_bind,
        store_ok top (k + 1) _ hlen, hm]
      rw [ih k _ (by omega) (by simp; omega) (by omega) (by omega)]
      congr 1
      rw [take_set_le _ _ _ _ (by omega), take_set_le _ _ _ _ (by omega),
        drop_set_self _ _ _ hlen, take_succ_getD top k (by omega),
        List.drop_append_of_le_length (by simp; omega)]
      simp
    · have : idx = j := by omega
      subst this
      have : (List.take idx top).length = idx := by simp; omega
      rw [List.drop_eq_nil_of_le (by omega)]
      simp [hgt]

theorem take_set_self (a : List Nat) (i v : Nat) (h : i < a.length) :
    (a.set i v).take (i + 1) = a.take i ++ [v] := by
  rw [set_splice a i v h]
  have hl : (List.take i a).length = i := by simp; omega
  rw [List.take_append_eq_append_take, hl, List.take_of_length_le (by omega)]
  simp

theorem slice_set_lt (a : List Nat) (i v m n : Nat) (h : i < m) :
    ((a.set i v).take n).drop m = (a.take n).drop m := by
  rw [List.drop_take, List.drop_take, List.drop_set_of_lt _ _ h]

theorem shift_left_ok (j : Nat) :
    ∀ (fuel idx : Nat) (top : List Nat), idx ≤ j → j < top.length → j ≤ 255 →
      j - idx < fuel →
      shift_left j fuel idx top
        = .ok (top.take idx ++ (top.take (j + 1)).drop (idx + 1) ++ top.drop j) := by
  intro fuel
  induction fuel with
  | zero => intro idx top _ _ _ h; omega
  | succ fuel ih =>
    intro idx top hj hlen h255 hf
    unfold shift_left
    by_cases hlt : idx < j
    · have hm : (idx + 1) % 256 = idx + 1 := Nat.mod_eq_of_lt (by omega)
      simp only [hlt, if_true, load_ok top (idx + 1) (by omega), ok_bind,
        store_ok top idx _ (by omega), hm]
      rw [ih (idx + 1) _ (by omega) (by simp; omega) (by omega) (by omega)]
      congr 1
      rw [take_set_self _ _ _ (by omega), slice_set_lt _ _ _ _ _ (by omega),
        List.drop_set_of_lt _ _ hlt,
        drop_getD_cons (List.take (j + 1) top) (idx + 1) (by simp; omega)]
      have hg : (List.take (j + 1) top).getD (idx + 1) 0 = top.getD (idx + 1) 0 := by
        simp [List.getD, List.getElem?_take, hlt]
      rw [hg]
      simp
    · have : idx = j := by omega
      subst this
      have : (List.take (idx + 1) top).length = idx + 1 := by simp; omega
      rw [List.drop_eq_nil_of_le (by omega)]
      simp [hlt]
theorem find_position_ok (top : List Nat) (curr val : Nat) (hc : curr ≤ top.length)
    (h255 : curr ≤ 255) :
    ∀ (fuel idx : Nat), idx ≤ curr → curr - idx < fuel →
      find_position top curr val fuel idx
        = .ok (idx + (((top.take curr).drop idx).takeWhile (fun t => decide (t < val))).length) := by
  intro fuel
  induction fuel with
  | zero => intro idx _ h; omega
  | succ fuel ih =>
    intro idx hi hf
    unfold find_position
    by_cases hlt : idx < curr
    · have hlen : idx < top.length := by omega
      have hd : (top.take curr).drop idx = top.getD idx 0 :: (top.take curr).drop (idx + 1) := by
        have h1 : idx < (top.take curr).length := by simp; omega
        rw [List.drop_eq_getElem_cons h1]
        simp [List.getD, List.getElem?_eq_getElem hlen]
      simp only [hlt, if_true, load_ok top idx hlen, ok_bind, hd, List.takeWhile_cons]
      by_cases hv : top.getD idx 0 < val
      · have hm : (idx + 1) % 256 = idx + 1 := Nat.mod_eq_of_lt (by omega)
        simp only [hv, if_true, hm, decide_True, List.length_cons]
        rw [ih (idx + 1) (by omega) (by omega)]
        congr 1
        omega
      · simp only [hv, if_false, decide_False, List.length_nil, Nat.add_zero]
        rfl
    · have : idx = curr := by omega
      subst this
      simp

theorem takeWhile_length_le (l : List Nat) (p : Nat → Bool) : (l.takeWhile p).length ≤ l.length :=
  (List.takeWhile_sublist p).length_le

theorem take_takeWhile_length (l : List Nat) (p : Nat → Bool) :
    l.take (l.takeWhile p).length = l.takeWhile p := by
  induction l with
  | nil => rfl
  | cons a l ih =>
    by_cases h : p a
    · simp [List.takeWhile_cons, h, ih]
    · simp [List.takeWhile_cons, h]

theorem drop_takeWhile_length (l : List Nat) (p : Nat → Bool) :
    l.drop (l.takeWhile p).length = l.dropWhile p := by
  induction l with
  | nil => rfl
  | cons a l ih =>
    by_cases h : p a
    · simp [List.takeWhile_cons, List.dropWhile_cons, h, ih]
    · simp [List.takeWhile_cons, List.dropWhile_cons, h]

theorem orderedInsert_splice (val : Nat) (l : List Nat) :
    List.orderedInsert (· ≤ ·) val l
      = l.takeWhile (fun t => decide (t < val)) ++ val :: l.dropWhile (fun t => decide (t < val)) := by
  rw [List.orderedInsert_eq_take_drop]
  have : (fun b => decide ¬ val ≤ b) = (fun t => decide (t < val)) := by
    funext b
    simp
  rw [this]

theorem insert_top_below (K : Nat) (s : Globals) (val : Nat) (hK : K ≤ 255)
    (hlen : s.top_values.length = K) (hc : s.curr_idx < K) :
    insert_top K s val = .ok { s with
      top_values := List.orderedInsert (· ≤ ·) val (s.top_values.take s.curr_idx)
        ++ s.top_values.drop (s.curr_idx + 1),
      curr_idx := s.curr_idx + 1 } := by
  have hm : (s.curr_idx + 1) % 256 = s.curr_idx + 1 := Nat.mod_eq_of_lt (by omega)
  unfold insert_top
  by_cases h0 : s.curr_idx = 0
  · simp only [h0, if_true, store_ok s.top_values 0 val (by omega), ok_bind, pure_eq_ok]
    simp [set_splice s.top_values 0 val (by omega)]
  · simp only [h0, if_false, hc, if_true, pure_eq_ok, ok_bind]
    rw [find_position_ok s.top_values s.curr_idx val (by omega) (by omega) loop_fuel 0
      (by omega) (by unfold loop_fuel; omega)]
    simp only [ok_bind, Nat.zero_add, List.drop_zero]
    set l := s.top_values.take s.curr_idx with hl
    set p := (l.takeWhile (fun t => decide (t < val))).length with hp
    have hll : l.length = s.curr_idx := by simp [hl]; omega
    have hpl : p ≤ s.curr_idx := hll ▸ takeWhile_length_le l _
    have hpK : ¬ p = K := by omega
    simp only [hpK, if_false]
    rw [shift_right_ok p loop_fuel s.curr_idx s.top_values hpl (by omega) (by omega)
      (by unfold loop_fuel; omega)]
    simp only [ok_bind]
    rw [store_ok _ _ _ (by simp; omega)]
    simp only [ok_bind, hm]
    congr 2
    rw [set_splice _ _ _ (by simp; omega), orderedInsert_splice, ← take_takeWhile_length l,
      ← drop_takeWhile_length l, ← hp]
    have e1 : List.take p l = List.take p s.top_values := by
      rw [hl, List.take_take]; congr 1; omega
    have hlp : (List.take (p + 1) s.top_values).length = p + 1 := by simp; omega
    rw [e1, List.take_append_of_le_length (by simp; omega),
      List.take_append_of_le_length (by omega), List.take_take,
      List.drop_append_of_le_length (by simp; omega),
      List.drop_append_of_le_length (by omega),
      List.drop_eq_nil_of_le (by omega)]
    have : min p (p + 1) = p := by omega
    simp [this]

theorem set_append_at (M D : List Nat) (j v : Nat) (hM : M.length = j) (hD : 0 < D.length) :
    (M ++ D).set j v = M ++ v :: D.drop 1 := by
  subst hM
  cases D with
  | nil => simp at hD
  | cons d D => simp

theorem insert_top_full_reject (K : Nat) (s : Globals) (val : Nat) (h0 : 0 < K)
    (hlen : s.top_values.length = K) (hc : s.curr_idx = K) (hv : val ≤ s.top_values.getD 0 0) :
    insert_top K s val = .ok s := by
  unfold insert_top
  have h1 : ¬ s.curr_idx = 0 := by omega
  have h2 : ¬ s.curr_idx < K := by omega
  have h3 : ¬ s.top_values.getD 0 0 < val := by omega
  simp only [h1, h2, if_false, load_ok s.top_values 0 (by omega), ok_bind, pure_eq_ok, h3,
    decide_False]
  rfl

theorem insert_top_full_accept (K : Nat) (s : Globals) (val : Nat) (h0 : 0 < K) (hK : K ≤ 255)
    (hlen : s.top_values.length = K) (hc : s.curr_idx = K) (hv : s.top_values.getD 0 0 < val) :
    ∃ j, j < K ∧
      j = (if (s.top_values.takeWhile (fun t => decide (t < val))).length = K then K - 1
           else (s.top_values.takeWhile (fun t => decide (t < val))).length) ∧
      insert_top K s val = .ok { s with
        top_values := (s.top_values.take (j + 1)).drop 1 ++ val :: s.top_values.drop (j + 1) } := by
  have hp := takeWhile_length_le s.top_values (fun t => decide (t < val))
  set p := (s.top_values.takeWhile (fun t => decide (t < val))).length with hpd
  refine ⟨if p = K then K - 1 else p, by split_ifs <;> omega, rfl, ?_⟩
  unfold insert_top
  have h1 : ¬ s.curr_idx = 0 := by omega
  have h2 : ¬ s.curr_idx < K := by omega
  simp only [h1, h2, if_false, load_ok s.top_values 0 (by omega), ok_bind, pure_eq_ok, hv,
    decide_True, if_true]
  rw [find_position_ok s.top_values s.curr_idx val (by omega) (by omega) loop_fuel 0
    (by omega) (by unfold loop_fuel; omega)]
  have ht : List.take s.curr_idx s.top_values = s.top_values := by
    rw [List.take_of_length_le (by omega)]
  simp only [ok_bind, Nat.zero_add, List.drop_zero, ht, ← hpd]
  have hmod : (K + 255) % 256 = K - 1 := by omega
  rw [hmod]
  set j := (if p = K then K - 1 else p) with hj
  have hjK : j < K := by rw [hj]; split_ifs <;> omega
  rw [shift_left_ok j loop_fuel 0 s.top_values (by omega) (by omega) (by omega)
    (by unfold loop_fuel; omega)]
  simp only [ok_bind, List.take_zero, List.nil_append, Nat.zero_add]
  rw [store_ok _ _ _ (by simp; omega)]
  simp only [ok_bind]
  congr 2
  have hl1 : (List.drop 1 (List.take (j + 1) s.top_values)).length = j := by simp; omega
  rw [set_append_at _ _ j val hl1 (by simp; omega), List.drop_drop]

theorem insert_last_ok (K : Nat) (s : Globals) (val : Nat) (hK : K ≤ 255)
    (hlen : s.last_values.length = K) (hl : s.last_idx < K) :
    insert_last K s val = .ok { s with
      last_values := s.last_values.set s.last_idx val, last_idx := (s.last_idx + 1) % K } := by
  unfold insert_last
  have hm : (s.last_idx + 1) % K % 256 = (s.last_idx + 1) % K :=
    Nat.mod_eq_of_lt (lt_of_lt_of_le (Nat.mod_lt _ (by omega)) (by omega))
  simp [store_ok s.last_values s.last_idx val (by omega), hm]

theorem init_wf (K : Nat) (h0 : 0 < K) (hK : K ≤ 255) : tracker_wf K (init K) :=
  ⟨h0, hK, by simp [init], by simp [init], by simp [init], by simp [init]; omega⟩

/-- Outcome of insert_top on a well-formed tracker, all three branches at once. -/
theorem insert_top_wf (K : Nat) (s : Globals) (val : Nat) (h : tracker_wf K s) :
    ∃ top, top.length = K ∧
      insert_top K s val = .ok { s with
        top_values := top, curr_idx := min (s.curr_idx + 1) K } := by
  rcases Nat.lt_or_ge s.curr_idx K with hc | hc
  · refine ⟨List.orderedInsert (· ≤ ·) val (s.top_values.take s.curr_idx)
        ++ s.top_values.drop (s.curr_idx + 1), ?_, ?_⟩
    · have := h.top_len
      simp [List.orderedInsert_length]
      omega
    · rw [insert_top_below K s val h.K_small h.top_len hc]
      congr 2
      omega
  · have hc' : s.curr_idx = K := le_antisymm h.curr_le hc
    have hmin : min (s.curr_idx + 1) K = s.curr_idx := by omega
    rw [hmin]
    rcases Nat.lt_or_ge (s.top_values.getD 0 0) val with hv | hv
    · obtain ⟨j, hj, -, he⟩ := insert_top_full_accept K s val h.K_pos h.K_small h.top_len hc' hv
      refine ⟨(s.top_values.take (j + 1)).drop 1 ++ val :: s.top_values.drop (j + 1), ?_, he⟩
      have := h.top_len
      simp
      omega
    · exact ⟨s.top_values, h.top_len, insert_top_full_reject K s val h.K_pos h.top_len hc' hv⟩

/-- Outcome of insert on a well-formed tracker. -/
theorem insert_wf (K : Nat) (s : Globals) (val : Nat) (h : tracker_wf K s) :
    ∃ top, top.length = K ∧
      insert K s val = .ok { s with
        inserted := s.inserted ++ [val],
        top_values := top, curr_idx := min (s.curr_idx + 1) K,
        last_values := s.last_values.set s.last_idx val,
        last_idx := (s.last_idx + 1) % K } := by
  have h1 : tracker_wf K { s with inserted := s.inserted ++ [val] } :=
    ⟨h.K_pos, h.K_small, h.top_len, h.last_len, h.curr_le, h.last_lt⟩
  obtain ⟨top, htop, he⟩ := insert_top_wf K _ val h1
  refine ⟨top, htop, ?_⟩
  unfold insert
  rw [he]
  simp only [ok_bind]
  rw [insert_last_ok K _ val h.K_small (by exact h.last_len) (by exact h.last_lt)]

theorem insert_wf_next (K : Nat) (s : Globals) (val : Nat) (h : tracker_wf K s) :
    ∃ s', insert K s val = .ok s' ∧ tracker_wf K s' ∧
      s'.inserted = s.inserted ++ [val] ∧ s'.prev_msb = s.prev_msb ∧ s'.bits_msb = s.bits_msb ∧
      s'.curr_idx = min (s.curr_idx + 1) K ∧
      s'.last_values = s.last_values.set s.last_idx val ∧
      s'.last_idx = (s.last_idx + 1) % K := by
  obtain ⟨top, htop, he⟩ := insert_wf K s val h
  refine ⟨_, he, ⟨h.K_pos, h.K_small, htop, ?_, ?_, ?_⟩, rfl, rfl, rfl, rfl, rfl, rfl⟩
  · simpa using h.last_len
  · exact Nat.min_le_right _ _
  · exact Nat.mod_lt _ h.K_pos

theorem insert_all_append (K : Nat) (vals ws : List Nat) :
    ∀ s, insert_all K s (vals ++ ws) = (insert_all K s vals >>= fun t => insert_all K t ws) := by
  induction vals with
  | nil => intro s; rfl
  | cons v vals ih =>
    intro s
    simp only [List.cons_append, insert_all]
    cases insert K s v with
    | error e => rfl
    | ok t => exact ih t

theorem read_file_append (K : Nat) (bs cs : List Nat) :
    ∀ s, read_file K s (bs ++ cs) = (read_file K s bs >>= fun t => read_file K t cs) := by
  induction bs with
  | nil => intro s; rfl
  | cons b bs ih =>
    intro s
    simp only [List.cons_append, read_file]
    cases unpack_bytes K s b with
    | error e => rfl
    | ok t => exact ih t

theorem insert_below (K : Nat) (s : Globals) (val : Nat) (h : tracker_wf K s)
    (hc : s.curr_idx < K) :
    insert K s val = .ok { s with
      inserted := s.inserted ++ [val],
      top_values := List.orderedInsert (· ≤ ·) val (s.top_values.take s.curr_idx)
        ++ s.top_values.drop (s.curr_idx + 1),
      curr_idx := s.curr_idx + 1,
      last_values := s.last_values.set s.last_idx val,
      last_idx := (s.last_idx + 1) % K } := by
  unfold insert
  rw [insert_top_below K _ val h.K_small (by exact h.top_len) (by exact hc)]
  simp only [ok_bind]
  rw [insert_last_ok K _ val h.K_small (by exact h.last_len) (by exact h.last_lt)]

theorem insert_full_reject (K : Nat) (s : Globals) (val : Nat) (h : tracker_wf K s)
    (hc : s.curr_idx = K) (hv : val ≤ s.top_values.getD 0 0) :
    insert K s val = .ok { s with
      inserted := s.inserted ++ [val],
      last_values := s.last_values.set s.last_idx val,
      last_idx := (s.last_idx + 1) % K } := by
  unfold insert
  rw [insert_top_full_reject K _ val h.K_pos (by exact h.top_len) (by exact hc) (by exact hv)]
  simp only [ok_bind]
  rw [insert_last_ok K _ val h.K_small (by exact h.last_len) (by exact h.last_lt)]

theorem top_readout_eq (K : Nat) (s : Globals) (h : s.curr_idx ≤ K) :
    top_readout K s = s.top_values.take s.curr_idx := by
  unfold top_readout printed
  split_ifs with hc
  · rfl
  · have : s.curr_idx = K := by omega
    rw [this]; rfl

/-- Rotation of the circular buffer: rewriting the slot under the cursor and advancing the
cursor drops the oldest entry of the window and appends the new value. -/
theorem rotate_step (L : List Nat) (i v : Nat) (hi : i < L.length) :
    (L.set i v).drop ((i + 1) % L.length) ++ (L.set i v).take ((i + 1) % L.length)
      = (L.drop i ++ L.take i).drop 1 ++ [v] := by
  have hd : (L.drop i ++ L.take i).drop 1 = L.drop (i + 1) ++ L.take i := by
    rw [drop_getD_cons L i hi]
    rfl
  rw [hd]
  rcases Nat.lt_or_ge (i + 1) L.length with h1 | h1
  · rw [Nat.mod_eq_of_lt h1, take_set_self L i v hi, List.drop_set_of_lt _ _ (Nat.lt_succ_self i),
      List.append_assoc]
  · have he : i + 1 = L.length := by omega
    rw [he, Nat.mod_self, List.drop_zero, List.take_zero, List.append_nil,
      List.drop_eq_nil_of_le (le_refl _), List.nil_append, set_splice L i v hi, he,
      List.drop_eq_nil_of_le (le_refl _)]

/-- The state of the tracker after the values vals, as far as the two readouts of main and
the counters are concerned. -/
theorem insert_all_wf (K : Nat) (vals : List Nat) :
    ∀ s, tracker_wf K s → ∃ s', insert_all K s vals = .ok s' ∧ tracker_wf K s' ∧
      s'.inserted = s.inserted ++ vals ∧ s'.prev_msb = s.prev_msb ∧ s'.bits_msb = s.bits_msb ∧
      s'.curr_idx = min (s.curr_idx + vals.length) K := by
  induction vals with
  | nil =>
    intro s h
    exact ⟨s, rfl, h, by simp, rfl, rfl, by have := h.curr_le; simp; omega⟩
  | cons v vals ih =>
    intro s h
    obtain ⟨t, ht, hwf, hi, hp, hb, hc, -, -⟩ := insert_wf_next K s v h
    obtain ⟨u, hu, hwfu, hiu, hpu, hbu, hcu⟩ := ih t hwf
    refine ⟨u, ?_, hwfu, ?_, by rw [hpu, hp], by rw [hbu, hb], ?_⟩
    · simp only [insert_all, ht, ok_bind, hu]
    · rw [hiu, hi]; simp
    · rw [hcu, hc]; simp only [List.length_cons]; omega

theorem last_window (K : Nat) (h0 : 0 < K) (hK : K ≤ 255) (vals : List Nat) :
    ∃ s, insert_all K (init K) vals = .ok s ∧ tracker_wf K s ∧
      s.curr_idx = min vals.length K ∧ s.last_idx = vals.length % K ∧
      (vals.length < K → s.last_values.take vals.length = vals) ∧
      (K ≤ vals.length → s.last_values.drop s.last_idx ++ s.last_values.take s.last_idx
        = vals.drop (vals.length - K)) := by
  induction vals using List.reverseRecOn with
  | nil =>
    refine ⟨init K, rfl, init_wf K h0 hK, by simp [init], by simp [init], by simp, ?_⟩
    intro h; simp at h; omega
  | append_singleton vals v ih =>
    obtain ⟨s, hs, hwf, hc, hl, hA, hB⟩ := ih
    obtain ⟨t, ht, hwft, -, -, -, hct, hlv, hli⟩ := insert_wf_next K s v hwf
    have hrun : insert_all K (init K) (vals ++ [v]) = .ok t := by
      rw [insert_all_append, hs]
      simp only [ok_bind, insert_all, ht, pure_eq_ok]
    have hlen : s.last_values.length = K := hwf.last_len
    refine ⟨t, hrun, hwft, ?_, ?_, ?_, ?_⟩
    · rw [hct, hc]; simp only [List.length_append, List.length_singleton]; omega
    · rw [hli, hl]; simp only [List.length_append, List.length_singleton]
      exact Nat.mod_add_mod _ _ _
    · intro hn
      simp only [List.length_append, List.length_singleton] at hn ⊢
      have hidx : s.last_idx = vals.length := by rw [hl]; exact Nat.mod_eq_of_lt (by omega)
      rw [hlv, hidx, take_set_self _ _ _ (by omega), hA (by omega)]
    · intro hn
      simp only [List.length_append, List.length_singleton] at hn ⊢
      rcases Nat.lt_or_ge vals.length K with hlt | hge
      · have hidx : s.last_idx = vals.length := by rw [hl]; exact Nat.mod_eq_of_lt hlt
        have hKe : vals.length + 1 = K := by omega
        have hz : t.last_idx = 0 := by rw [hli, hidx, hKe, Nat.mod_self]
        have hsub : vals.length + 1 - K = 0 := by omega
        rw [hz, hsub, List.drop_zero, List.take_zero, List.append_nil, List.drop_zero, hlv, hidx]
        have h1 := take_set_self s.last_values vals.length v (by omega)
        rw [hA hlt, List.take_of_length_le (by simp; omega)] at h1
        exact h1
      · have hi : s.last_idx < s.last_values.length := by rw [hlen]; exact hwf.last_lt
        have hstep := rotate_step s.last_values s.last_idx v hi
        rw [hlen] at hstep
        rw [hli, hlv, hstep, hB hge, List.drop_drop, List.drop_append_of_le_length (by omega)]
        congr 2
        omega

theorem fold_sorted_perm (vals : List Nat) (r : List Nat) (v : Nat)
    (h : r = vals.insertionSort (· ≤ ·)) :
    List.orderedInsert (· ≤ ·) v r = (vals ++ [v]).insertionSort (· ≤ ·) := by
  subst h
  apply List.eq_of_perm_of_sorted (r := (· ≤ ·))
  · refine (List.perm_orderedInsert _ _ _).trans ?_
    refine List.Perm.trans ?_ (List.perm_insertionSort _ _).symm
    refine List.Perm.trans (List.Perm.cons v (List.perm_insertionSort _ _)) ?_
    exact (List.perm_append_singleton v vals).symm
  · exact (List.sorted_insertionSort _ _).orderedInsert _ _
  · exact List.sorted_insertionSort _ _

theorem below_capacity_sorted (K : Nat) (h0 : 0 < K) (hK : K ≤ 255) (vals : List Nat)
    (hn : vals.length ≤ K) :
    ∃ s, insert_all K (init K) vals = .ok s ∧ tracker_wf K s ∧ s.curr_idx = vals.length ∧
      top_readout K s = vals.insertionSort (· ≤ ·) := by
  induction vals using List.reverseRecOn with
  | nil =>
    exact ⟨init K, rfl, init_wf K h0 hK, rfl, by simp [top_readout_eq, init]⟩
  | append_singleton vals v ih =>
    simp only [List.length_append, List.length_singleton] at hn
    obtain ⟨s, hs, hwf, hc, hr⟩ := ih (by omega)
    have hlt : s.curr_idx < K := by omega
    have hstep := insert_below K s v hwf hlt
    obtain ⟨t, ht, hwft, -⟩ := insert_wf_next K s v hwf
    rw [hstep] at ht
    have hrun : insert_all K (init K) (vals ++ [v]) = .ok t := by
      rw [insert_all_append, hs]
      simp only [ok_bind, insert_all, hstep, pure_eq_ok, ht]
    have htc : t.curr_idx = s.curr_idx + 1 := by
      have := congrArg (fun r => r.toOption.map Globals.curr_idx) ht
      simpa [Except.toOption] using this.symm
    have htt : t.top_values = List.orderedInsert (· ≤ ·) v (s.top_values.take s.curr_idx)
        ++ s.top_values.drop (s.curr_idx + 1) := by
      have := congrArg (fun r => r.toOption.map Globals.top_values) ht
      simpa [Except.toOption] using this.symm
    refine ⟨t, hrun, hwft, ?_, ?_⟩
    · rw [htc, hc]; simp
    · rw [top_readout_eq K t hwft.curr_le, htt, htc]
      rw [top_readout_eq K s hwf.curr_le] at hr
      have hl : (List.orderedInsert (· ≤ ·) v (s.top_values.take s.curr_idx)).length
          = s.curr_idx + 1 := by
        have := hwf.top_len
        simp [List.orderedInsert_length]; omega
      rw [List.take_append_of_le_length (by omega), List.take_of_length_le (by omega)]
      exact fold_sorted_perm vals _ v hr

theorem shl_or_eq (x y k : Nat) (hy : y < 2 ^ k) : (x <<< k) ||| y = x * 2 ^ k + y := by
  rw [Nat.shiftLeft_eq, Nat.mul_comm x, ← Nat.mul_add_lt_is_or hy]

theorem pack_low_byte (p b : Nat) (hb : b < 256) : (p <<< 8) ||| b = p * 256 + b :=
  shl_or_eq p b 8 hb

theorem pack_low_nibble (p b : Nat) (hb : b < 256) : (p <<< 4) ||| (b >>> 4) = p * 16 + b / 16 := by
  have h : b >>> 4 = b / 16 := Nat.shiftRight_eq_div_pow b 4
  rw [h]
  exact shl_or_eq p (b / 16) 4 (by show b / 16 < 16; omega)

theorem big_endian_snoc (bs : List Nat) (b : Nat) :
    big_endian (bs ++ [b]) = big_endian bs * 256 + b := by
  simp [big_endian, List.foldl_append]

/-- Appending a byte leaves every complete group of the stream unchanged. -/
theorem group_stable (N b n i : Nat) (hb : b < 256) (hi : 12 * (i + 1) ≤ 8 * n) :
    (N * 256 + b) / 2 ^ (8 * (n + 1) - 12 * (i + 1)) % 4096
      = N / 2 ^ (8 * n - 12 * (i + 1)) % 4096 := by
  have he : 8 * (n + 1) - 12 * (i + 1) = 8 + (8 * n - 12 * (i + 1)) := by omega
  rw [he, Nat.pow_add, ← Nat.div_div_eq_div_mul]
  have : (N * 256 + b) / 2 ^ 8 = N := by
    show (N * 256 + b) / 256 = N
    omega
  rw [this]

/-- The unpacker part of the state after the bytes bs: what is buffered and what was emitted. -/
theorem read_file_state (K : Nat) (h0 : 0 < K) (hK : K ≤ 255) (bs : List Nat)
    (hb : ∀ b ∈ bs, b < 256) :
    ∃ s, read_file K (init K) bs = .ok s ∧ tracker_wf K s ∧
      s.bits_msb = 8 * bs.length % 12 ∧
      s.prev_msb = big_endian bs % 2 ^ s.bits_msb ∧
      s.inserted = (List.range (8 * bs.length / 12)).map
        (fun i => big_endian bs / 2 ^ (8 * bs.length - 12 * (i + 1)) % 4096) := by
  induction bs using List.reverseRecOn with
  | nil =>
    exact ⟨init K, rfl, init_wf K h0 hK, rfl, by simp [init, big_endian], by simp [init]⟩
  | append_singleton bs b ih =>
    obtain ⟨s, hs, hwf, hbits, hprev, hins⟩ := ih (fun x hx => hb x (by simp [hx]))
    have hb256 : b < 256 := hb b (by simp)
    set n := bs.length with hn
    set N := big_endian bs with hN
    have hlen : (bs ++ [b]).length = n + 1 := by simp [hn]
    rw [read_file_append, hs, hlen, big_endian_snoc, ← hN]
    simp only [ok_bind, read_file, pure_eq_ok]
    have hold : ∀ q, 12 * q ≤ 8 * n →
        (List.range q).map (fun i => (N * 256 + b) / 2 ^ (8 * (n + 1) - 12 * (i + 1)) % 4096)
          = (List.range q).map (fun i => N / 2 ^ (8 * n - 12 * (i + 1)) % 4096) := by
      intro q hq
      apply List.map_congr_left
      intro i hi
      rw [List.mem_range] at hi
      exact group_stable N b n i hb256 (by omega)
    have hcases : 8 * n % 12 = 0 ∨ 8 * n % 12 = 4 ∨ 8 * n % 12 = 8 := by omega
    rcases hcases with h | h | h
    · -- a fresh group starts with this byte
      rw [h] at hbits
      refine ⟨{ s with prev_msb := b, bits_msb := 8 }, ?_, ?_, ?_, ?_, ?_⟩
      · simp [unpack_bytes, hbits]
      · exact ⟨hwf.K_pos, hwf.K_small, hwf.top_len, hwf.last_len, hwf.curr_le, hwf.last_lt⟩
      · show 8 = 8 * (n + 1) % 12
        omega
      · show b = (N * 256 + b) % 2 ^ 8
        show b = (N * 256 + b) % 256
        omega
      · show s.inserted = _
        have hq : 8 * (n + 1) / 12 = 8 * n / 12 := by omega
        rw [hq, hold _ (by omega), hins]
    · -- the byte completes the group whose high nibble is buffered
      rw [h] at hbits
      rw [hbits] at hprev
      have hp : s.prev_msb = N % 16 := hprev
      have hval : ((s.prev_msb <<< 8) ||| b) % 65536 = N % 16 * 256 + b := by
        rw [pack_low_byte _ _ hb256, hp]
        omega
      obtain ⟨t, ht, hwft, hti, -⟩ := insert_wf_next K s (N % 16 * 256 + b) hwf
      refine ⟨{ t with prev_msb := 0, bits_msb := 0 }, ?_, ?_, ?_, ?_, ?_⟩
      · simp [unpack_bytes, hbits, hval, ht]
      · exact ⟨hwft.K_pos, hwft.K_small, hwft.top_len, hwft.last_len, hwft.curr_le, hwft.last_lt⟩
      · show 0 = 8 * (n + 1) % 12
        omega
      · show 0 = (N * 256 + b) % 2 ^ 0
        simp [Nat.mod_one]
      · show t.inserted = _
        have hq : 8 * (n + 1) / 12 = 8 * n / 12 + 1 := by omega
        have he : 8 * (n + 1) - 12 * (8 * n / 12 + 1) = 0 := by omega
        rw [hti, hq, List.range_succ, List.map_append, hold _ (by omega), hins]
        simp only [List.map_cons, List.map_nil, he, Nat.pow_zero, Nat.div_one]
        congr 2
        omega
    · -- the byte completes the group whose high byte is buffered and starts the next one
      rw [h] at hbits
      rw [hbits] at hprev
      have hp : s.prev_msb = N % 256 := hprev
      have hval : ((s.prev_msb <<< 4) ||| (b >>> 4)) % 65536 = N % 256 * 16 + b / 16 := by
        rw [pack_low_nibble _ _ hb256, hp]
        omega
      have hwf1 : tracker_wf K { s with prev_msb := b % 16 } :=
        ⟨hwf.K_pos, hwf.K_small, hwf.top_len, hwf.last_len, hwf.curr_le, hwf.last_lt⟩
      obtain ⟨t, ht, hwft, hti, htp, -⟩ := insert_wf_next K _ (N % 256 * 16 + b / 16) hwf1
      refine ⟨{ t with bits_msb := 4 }, ?_, ?_, ?_, ?_, ?_⟩
      · have h15 : b &&& 15 = b % 16 := Nat.and_pow_two_sub_one_eq_mod b 4
        rw [hbits] at ht
        simp [unpack_bytes, hbits, hval, h15, ht]
      · exact ⟨hwft.K_pos, hwft.K_small, hwft.top_len, hwft.last_len, hwft.curr_le, hwft.last_lt⟩
      · show 4 = 8 * (n + 1) % 12
        omega
      · show t.prev_msb = (N * 256 + b) % 2 ^ 4
        rw [htp]
        show b % 16 = (N * 256 + b) % 16
        omega
      · show t.inserted = _
        have hq : 8 * (n + 1) / 12 = 8 * n / 12 + 1 := by omega
        have he : 8 * (n + 1) - 12 * (8 * n / 12 + 1) = 4 := by omega
        rw [hti, hq, List.range_succ, List.map_append, hold _ (by omega)]
        show s.inserted ++ _ = _
        rw [hins]
        simp only [List.map_cons, List.map_nil, he]
        congr 2
        show N % 256 * 16 + b / 16 = (N * 256 + b) / 16 % 4096
        omega

/-! Further properties of insert and unpack_bytes used by the later claims. -/

/-- An accepted insert on a full array: entry 0 leaves, the value enters, the rest stays. -/
theorem insert_full_accept (K : Nat) (s : Globals) (val : Nat) (h : tracker_wf K s)
    (hc : s.curr_idx = K) (hv : s.top_values.getD 0 0 < val) :
    ∃ A B, A ++ B = s.top_values.tail ∧
      insert K s val = .ok { s with
        inserted := s.inserted ++ [val],
        top_values := A ++ val :: B,
        last_values := s.last_values.set s.last_idx val,
        last_idx := (s.last_idx + 1) % K } := by
  obtain ⟨j, hj, -, he⟩ := insert_top_full_accept K { s with inserted := s.inserted ++ [val] } val
    h.K_pos h.K_small h.top_len hc hv
  refine ⟨(s.top_values.take (j + 1)).drop 1, s.top_values.drop (j + 1), ?_, ?_⟩
  · have hlen := h.top_len
    have h1 : 1 ≤ (List.take (j + 1) s.top_values).length := by simp; omega
    rw [← List.drop_append_of_le_length h1, List.take_append_drop, List.drop_one]
  · unfold insert
    rw [he]
    simp only [ok_bind]
    rw [insert_last_ok K _ val h.K_small (by exact h.last_len) (by exact h.last_lt)]

theorem full_readout_eq (K : Nat) (s : Globals) (h : tracker_wf K s) (hc : s.curr_idx = K) :
    top_readout K s = s.top_values := by
  rw [top_readout_eq K s h.curr_le, hc, List.take_of_length_le (by rw [h.top_len])]

theorem full_last_readout_eq (K : Nat) (s : Globals) (h : tracker_wf K s) (hc : s.curr_idx = K) :
    last_readout K s = s.last_values.drop s.last_idx ++ s.last_values.take s.last_idx := by
  unfold last_readout printed
  rw [if_neg (by omega), List.take_of_length_le (by rw [h.last_len]), List.drop_zero]

theorem head_cons_tail (l : List Nat) (h : 0 < l.length) : l = l.getD 0 0 :: l.tail := by
  cases l with
  | nil => simp at h
  | cons a l => rfl

theorem below_readout_step (K : Nat) (s : Globals) (val : Nat) (h : tracker_wf K s)
    (hc : s.curr_idx < K) :
    ∃ t, insert K s val = .ok t ∧ tracker_wf K t ∧ t.curr_idx = s.curr_idx + 1 ∧
      top_readout K t = List.orderedInsert (· ≤ ·) val (top_readout K s) := by
  obtain ⟨t, ht, hwft, -⟩ := insert_wf_next K s val h
  have hstep := insert_below K s val h hc
  rw [ht] at hstep
  have hte := Except.ok.inj hstep
  have htc : t.curr_idx = s.curr_idx + 1 := by rw [hte]
  refine ⟨t, ht, hwft, htc, ?_⟩
  rw [top_readout_eq K t hwft.curr_le, top_readout_eq K s h.curr_le, htc, hte]
  show List.take (s.curr_idx + 1) (List.orderedInsert (· ≤ ·) val
    (s.top_values.take s.curr_idx) ++ s.top_values.drop (s.curr_idx + 1)) = _
  have hl : (List.orderedInsert (· ≤ ·) val (s.top_values.take s.curr_idx)).length
      = s.curr_idx + 1 := by
    have := h.top_len
    simp [List.orderedInsert_length]; omega
  rw [List.take_append_of_le_length (by omega), List.take_of_length_le (by omega)]

/-- What one insert does to the Top-K readout: the value joins it, or it is dropped, or it
takes the place of entry 0. -/
theorem top_readout_step (K : Nat) (s : Globals) (val : Nat) (h : tracker_wf K s) :
    ∃ t, insert K s val = .ok t ∧ tracker_wf K t ∧
      ((s.curr_idx < K ∧ (top_readout K t).Perm (val :: top_readout K s)) ∨
       (s.curr_idx = K ∧ val ≤ s.top_values.getD 0 0 ∧ top_readout K t = top_readout K s) ∨
       (s.curr_idx = K ∧ s.top_values.getD 0 0 < val ∧
          (top_readout K t).Perm (val :: (top_readout K s).tail))) := by
  rcases Nat.lt_or_ge s.curr_idx K with hc | hc
  · obtain ⟨t, ht, hwft, -, hr⟩ := below_readout_step K s val h hc
    exact ⟨t, ht, hwft, Or.inl ⟨hc, hr ▸ List.perm_orderedInsert _ _ _⟩⟩
  · have hc' : s.curr_idx = K := le_antisymm h.curr_le hc
    obtain ⟨t, ht, hwft, -, -, -, htc, -⟩ := insert_wf_next K s val h
    have htc' : t.curr_idx = K := by rw [htc]; omega
    refine ⟨t, ht, hwft, Or.inr ?_⟩
    rw [full_readout_eq K t hwft htc', full_readout_eq K s h hc']
    rcases Nat.lt_or_ge (s.top_values.getD 0 0) val with hv | hv
    · right
      obtain ⟨A, B, hAB, he⟩ := insert_full_accept K s val h hc' hv
      rw [ht] at he
      have hte := Except.ok.inj he
      refine ⟨hc', hv, ?_⟩
      rw [hte, ← hAB]
      exact List.perm_middle
    · left
      have he := insert_full_reject K s val h hc' hv
      rw [ht] at he
      have hte := Except.ok.inj he
      exact ⟨hc', hv, by rw [hte]⟩

/-- The two facts about the Top-K readout that survive at capacity: its entries are values
that were inserted, and every inserted value is at most some entry. -/
theorem top_readout_within (K : Nat) (h0 : 0 < K) (hK : K ≤ 255) (vals : List Nat) :
    ∃ s, insert_all K (init K) vals = .ok s ∧ tracker_wf K s ∧
      (top_readout K s).Subperm vals ∧
      ∀ x ∈ vals, ∃ y ∈ top_readout K s, x ≤ y := by
  induction vals using List.reverseRecOn with
  | nil =>
    refine ⟨init K, rfl, init_wf K h0 hK, ?_, by simp⟩
    simp [top_readout_eq, init]
  | append_singleton vals v ih =>
    obtain ⟨s, hs, hwf, hsub, hdom⟩ := ih
    obtain ⟨t, ht, hwft, hcase⟩ := top_readout_step K s v hwf
    have hrun : insert_all K (init K) (vals ++ [v]) = .ok t := by
      rw [insert_all_append, hs]
      simp only [ok_bind, insert_all, ht, pure_eq_ok]
    have hsnoc : (v :: vals).Perm (vals ++ [v]) := (List.perm_append_singleton v vals).symm
    refine ⟨t, hrun, hwft, ?_, ?_⟩
    · rcases hcase with ⟨-, hp⟩ | ⟨-, -, he⟩ | ⟨-, -, hp⟩
      · exact (hp.subperm.trans ((List.subperm_cons v).2 hsub)).trans hsnoc.subperm
      · rw [he]
        exact hsub.trans (List.sublist_append_left vals [v]).subperm
      · have htail : ((top_readout K s).tail).Subperm vals :=
          (List.tail_sublist _).subperm.trans hsub
        exact (hp.subperm.trans ((List.subperm_cons v).2 htail)).trans hsnoc.subperm
    · intro x hx
      rw [List.mem_append, List.mem_singleton] at hx
      rcases hcase with ⟨-, hp⟩ | ⟨hc, hv, he⟩ | ⟨hc, hv, hp⟩
      · rcases hx with hx | rfl
        · obtain ⟨y, hy, hxy⟩ := hdom x hx
          exact ⟨y, hp.symm.subset (List.mem_cons_of_mem _ hy), hxy⟩
        · exact ⟨x, hp.symm.subset (List.mem_cons_self _ _), le_refl _⟩
      · rw [he]
        rcases hx with hx | rfl
        · exact hdom x hx
        · refine ⟨s.top_values.getD 0 0, ?_, hv⟩
          have hlen : 0 < s.top_values.length := by rw [hwf.top_len]; exact h0
          rw [full_readout_eq K s hwf hc]
          have := head_cons_tail s.top_values hlen
          rw [this]
          exact List.mem_cons_self _ _
      · rcases hx with hx | rfl
        · obtain ⟨y, hy, hxy⟩ := hdom x hx
          have hlen : 0 < s.top_values.length := by rw [hwf.top_len]; exact h0
          rw [full_readout_eq K s hwf hc] at hy hp
          rw [head_cons_tail s.top_values hlen, List.mem_cons] at hy
          rcases hy with hy | hy
          · exact ⟨v, hp.symm.subset (List.mem_cons_self _ _), by omega⟩
          · exact ⟨y, hp.symm.subset (List.mem_cons_of_mem _ hy), hxy⟩
        · exact ⟨x, hp.symm.subset (List.mem_cons_self _ _), le_refl _⟩

/-- The first index of a sorted list that holds a given member is where the entries smaller
than it end. -/
theorem first_equal_entry (val : Nat) (l : List Nat) (hs : l.Sorted (· ≤ ·)) (hm : val ∈ l) :
    (l.takeWhile (fun t => decide (t < val))).length < l.length ∧
    l.getD (l.takeWhile (fun t => decide (t < val))).length 0 = val := by
  induction l with
  | nil => simp at hm
  | cons a l ih =>
    by_cases h : a < val
    · have hm' : val ∈ l := by
        rcases List.mem_cons.1 hm with rfl | h'
        · omega
        · exact h'
      obtain ⟨h1, h2⟩ := ih hs.of_cons hm'
      simp only [List.takeWhile_cons, h, decide_True, if_true, List.length_cons]
      refine ⟨by omega, ?_⟩
      simpa [List.getD] using h2
    · have ha : a = val := by
        rcases List.mem_cons.1 hm with rfl | h'
        · rfl
        · have := List.rel_of_sorted_cons hs val h'
          omega
      simp [List.takeWhile_cons, h, ha]

theorem before_scan_stop (val : Nat) (l : List Nat) (i : Nat)
    (hi : i < (l.takeWhile (fun t => decide (t < val))).length) : l.getD i 0 < val := by
  induction l generalizing i with
  | nil => simp at hi
  | cons a l ih =>
    by_cases h : a < val
    · simp only [List.takeWhile_cons, h, decide_True, if_true, List.length_cons] at hi
      cases i with
      | zero => simpa [List.getD] using h
      | succ i =>
        have := ih i (by omega)
        simpa [List.getD] using this
    · simp [List.takeWhile_cons, h] at hi

theorem getD_take_lt (l : List Nat) (n i : Nat) (h : i < n) :
    (l.take n).getD i 0 = l.getD i 0 := by
  simp [List.getD, List.getElem?_take, h]

/-- One call of unpack_bytes on a tracker in range, branch by branch. -/
theorem unpack_bytes_step (K : Nat) (s : Globals) (b : Nat) (h : tracker_wf K s) :
    ∃ t, unpack_bytes K s b = .ok t ∧ tracker_wf K t ∧
      (s.bits_msb = 0 → t.bits_msb = 8 ∧ t.prev_msb = b ∧ t.inserted = s.inserted) ∧
      (s.bits_msb = 4 → t.bits_msb = 0 ∧ t.prev_msb = 0 ∧
        t.inserted = s.inserted ++ [((s.prev_msb <<< 8) ||| b) % 65536]) ∧
      (s.bits_msb = 8 → t.bits_msb = 4 ∧ t.prev_msb = b &&& 15 ∧
        t.inserted = s.inserted ++ [((s.prev_msb <<< 4) ||| (b >>> 4)) % 65536]) ∧
      (s.bits_msb ≠ 0 → s.bits_msb ≠ 4 → s.bits_msb ≠ 8 → t = s) := by
  by_cases h0 : s.bits_msb = 0
  · refine ⟨{ s with prev_msb := b, bits_msb := 8 }, by simp [unpack_bytes, h0],
      ⟨h.K_pos, h.K_small, h.top_len, h.last_len, h.curr_le, h.last_lt⟩,
      fun _ => ⟨rfl, rfl, rfl⟩, fun h4 => by omega, fun h8 => by omega, fun hn => absurd h0 hn⟩
  by_cases h4 : s.bits_msb = 4
  · obtain ⟨t, ht, hwft, hti, -⟩ := insert_wf_next K s (((s.prev_msb <<< 8) ||| b) % 65536) h
    refine ⟨{ t with prev_msb := 0, bits_msb := 0 }, by simp [unpack_bytes, h4, ht],
      ⟨hwft.K_pos, hwft.K_small, hwft.top_len, hwft.last_len, hwft.curr_le, hwft.last_lt⟩,
      fun h0' => absurd h0' h0, fun _ => ⟨rfl, rfl, hti⟩, fun h8 => by omega,
      fun _ hn => absurd h4 hn⟩
  by_cases h8 : s.bits_msb = 8
  · have hwf1 : tracker_wf K { s with prev_msb := b &&& 15 } :=
      ⟨h.K_pos, h.K_small, h.top_len, h.last_len, h.curr_le, h.last_lt⟩
    obtain ⟨t, ht, hwft, hti, htp, -⟩ :=
      insert_wf_next K _ (((s.prev_msb <<< 4) ||| (b >>> 4)) % 65536) hwf1
    refine ⟨{ t with bits_msb := 4 }, ?_,
      ⟨hwft.K_pos, hwft.K_small, hwft.top_len, hwft.last_len, hwft.curr_le, hwft.last_lt⟩,
      fun h0' => absurd h0' h0, fun h4' => absurd h4' h4, fun _ => ⟨rfl, htp, hti⟩,
      fun _ _ hn => absurd h8 hn⟩
    rw [h8] at ht
    simp [unpack_bytes, h8, ht]
  · exact ⟨s, by simp [unpack_bytes, h0, h4, h8], h, fun h0' => absurd h0' h0,
      fun h4' => absurd h4' h4, fun h8' => absurd h8' h8, fun _ _ _ => rfl⟩

/-- Two runs of read_file over the same bytes from trackers whose unpacker parts agree emit
the same values and end with agreeing unpacker parts. -/
theorem read_file_same_emission (K : Nat) (cs : List Nat) :
    ∀ s s', tracker_wf K s → tracker_wf K s' → s.bits_msb = s'.bits_msb →
      s.prev_msb = s'.prev_msb →
      ∃ t t' e, read_file K s cs = .ok t ∧ read_file K s' cs = .ok t' ∧
        t.inserted = s.inserted ++ e ∧ t'.inserted = s'.inserted ++ e ∧
        t.bits_msb = t'.bits_msb ∧ t.prev_msb = t'.prev_msb := by
  induction cs with
  | nil =>
    intro s s' _ _ hb hp
    exact ⟨s, s', [], rfl, rfl, by simp, by simp, hb, hp⟩
  | cons b cs ih =>
    intro s s' hwf hwf' hb hp
    obtain ⟨u, hu, hwfu, u0, u4, u8, un⟩ := unpack_bytes_step K s b hwf
    obtain ⟨u', hu', hwfu', v0, v4, v8, vn⟩ := unpack_bytes_step K s' b hwf'
    have key : ∃ d, u.inserted = s.inserted ++ d ∧ u'.inserted = s'.inserted ++ d ∧
        u.bits_msb = u'.bits_msb ∧ u.prev_msb = u'.prev_msb := by
      by_cases h0 : s.bits_msb = 0
      · obtain ⟨a1, a2, a3⟩ := u0 h0
        obtain ⟨b1, b2, b3⟩ := v0 (hb ▸ h0)
        exact ⟨[], by simp [a3], by simp [b3], by rw [a1, b1], by rw [a2, b2]⟩
      by_cases h4 : s.bits_msb = 4
      · obtain ⟨a1, a2, a3⟩ := u4 h4
        obtain ⟨b1, b2, b3⟩ := v4 (hb ▸ h4)
        exact ⟨_, a3, by rw [b3, hp], by rw [a1, b1], by rw [a2, b2]⟩
      by_cases h8 : s.bits_msb = 8
      · obtain ⟨a1, a2, a3⟩ := u8 h8
        obtain ⟨b1, b2, b3⟩ := v8 (hb ▸ h8)
        exact ⟨_, a3, by rw [b3, hp], by rw [a1, b1], by rw [a2, b2]⟩
      · have e1 := un h0 h4 h8
        have e2 := vn (hb ▸ h0) (hb ▸ h4) (hb ▸ h8)
        exact ⟨[], by simp [e1], by simp [e2], by rw [e1, e2, hb], by rw [e1, e2, hp]⟩
    obtain ⟨d, hd, hd', hbu, hpu⟩ := key
    obtain ⟨t, t', e, ht, ht', hte, hte', hbt, hpt⟩ := ih u u' hwfu hwfu' hbu hpu
    refine ⟨t, t', d ++ e, ?_, ?_, ?_, ?_, hbt, hpt⟩
    · simp only [read_file, hu, ok_bind, ht]
    · simp only [read_file, hu', ok_bind, ht']
    · rw [hte, hd, List.append_assoc]
    · rw [hte', hd', List.append_assoc]

/-- Three bytes fed from a state with nothing pending: two values, nothing pending again. -/
theorem three_byte_cycle (K : Nat) (s : Globals) (b0 b1 b2 : Nat) (h : tracker_wf K s)
    (hs : s.bits_msb = 0) (h0 : b0 < 256) (h1 : b1 < 256) (h2 : b2 < 256) :
    ∃ t, read_file K s [b0, b1, b2] = .ok t ∧ tracker_wf K t ∧
      t.inserted = s.inserted ++ [(b0 <<< 4) ||| (b1 >>> 4), ((b1 &&& 15) <<< 8) ||| b2] ∧
      t.bits_msb = 0 ∧ t.prev_msb = 0 := by
  obtain ⟨u, hu, hwfu, u0, -⟩ := unpack_bytes_step K s b0 h
  obtain ⟨a1, a2, a3⟩ := u0 hs
  obtain ⟨v, hv, hwfv, -, -, v8, -⟩ := unpack_bytes_step K u b1 hwfu
  obtain ⟨c1, c2, c3⟩ := v8 a1
  obtain ⟨w, hw, hwfw, -, w4, -⟩ := unpack_bytes_step K v b2 hwfv
  obtain ⟨d1, d2, d3⟩ := w4 c1
  refine ⟨w, ?_, hwfw, ?_, d1, d2⟩
  · simp only [read_file, hu, hv, hw, ok_bind, pure_eq_ok]
  · have e1 : ((b0 <<< 4) ||| (b1 >>> 4)) % 65536 = (b0 <<< 4) ||| (b1 >>> 4) := by
      rw [pack_low_nibble _ _ h1]
      omega
    have h15 : b1 &&& 15 = b1 % 16 := Nat.and_pow_two_sub_one_eq_mod b1 4
    have e2 : (((b1 &&& 15) <<< 8) ||| b2) % 65536 = ((b1 &&& 15) <<< 8) ||| b2 := by
      rw [pack_low_byte _ _ h2, h15]
      omega
    rw [d3, c3, a3, c2, a2, e1, e2, List.append_assoc]
    rfl

/-- The values emitted for bs ++ cs are those for bs followed by those for cs when the
length of bs is a multiple of 3. -/
theorem emitted_split (K : Nat) (h0 : 0 < K) (hK : K ≤ 255) (bs cs : List Nat)
    (hb : ∀ b ∈ bs, b < 256) (h3 : bs.length % 3 = 0) :
    ∃ sb sc sbc, read_file K (init K) bs = .ok sb ∧ read_file K (init K) cs = .ok sc ∧
      read_file K (init K) (bs ++ cs) = .ok sbc ∧
      sbc.inserted = sb.inserted ++ sc.inserted := by
  obtain ⟨sb, hsb, hwfb, hbits, hprev, -⟩ := read_file_state K h0 hK bs hb
  have hb0 : sb.bits_msb = 0 := by rw [hbits]; omega
  have hp0 : sb.prev_msb = 0 := by rw [hprev, hb0]; simp [Nat.mod_one]
  obtain ⟨t, t', e, ht, ht', hte, hte', -, -⟩ :=
    read_file_same_emission K cs sb (init K) hwfb (init_wf K h0 hK)
      (by rw [hb0]; rfl) (by rw [hp0]; rfl)
  refine ⟨sb, t', t, hsb, ht', ?_, ?_⟩
  · rw [read_file_append, hsb]
    exact ht
  · rw [hte, hte']
    simp [init]

theorem three_bytes_determined (b0 b1 b2 c0 c1 c2 : Nat)
    (hb1 : b1 < 256) (hb2 : b2 < 256) (hc1 : c1 < 256) (hc2 : c2 < 256)
    (hv : (b0 <<< 4) ||| (b1 >>> 4) = (c0 <<< 4) ||| (c1 >>> 4))
    (hw : ((b1 &&& 15) <<< 8) ||| b2 = ((c1 &&& 15) <<< 8) ||| c2) :
    b0 = c0 ∧ b1 = c1 ∧ b2 = c2 := by
  rw [pack_low_nibble _ _ hb1, pack_low_nibble _ _ hc1] at hv
  have hb15 : b1 &&& 15 = b1 % 16 := Nat.and_pow_two_sub_one_eq_mod b1 4
  have hc15 : c1 &&& 15 = c1 % 16 := Nat.and_pow_two_sub_one_eq_mod c1 4
  rw [pack_low_byte _ _ hb2, pack_low_byte _ _ hc2, hb15, hc15] at hw
  omega

theorem whole_groups_injective (K : Nat) (h0 : 0 < K) (hK : K ≤ 255) (m : Nat) :
    ∀ bs cs : List Nat, bs.length = 3 * m → cs.length = 3 * m →
      (∀ b ∈ bs, b < 256) → (∀ b ∈ cs, b < 256) →
      ∀ sb sc, read_file K (init K) bs = .ok sb → read_file K (init K) cs = .ok sc →
        sb.inserted = sc.inserted → bs = cs := by
  induction m with
  | zero =>
    intro bs cs hbl hcl _ _ _ _ _ _ _
    rw [List.length_eq_zero.1 (by omega : bs.length = 0),
      List.length_eq_zero.1 (by omega : cs.length = 0)]
  | succ m ih =>
    intro bs cs hbl hcl hb hc sb sc hsb hsc heq
    match bs, cs, hbl, hcl with
    | b0 :: b1 :: b2 :: bs', c0 :: c1 :: c2 :: cs', hbl, hcl =>
      simp only [List.length_cons] at hbl hcl
      have hb0 : b0 < 256 := hb b0 (by simp)
      have hb1 : b1 < 256 := hb b1 (by simp)
      have hb2 : b2 < 256 := hb b2 (by simp)
      have hc0 : c0 < 256 := hc c0 (by simp)
      have hc1 : c1 < 256 := hc c1 (by simp)
      have hc2 : c2 < 256 := hc c2 (by simp)
      have hwf := init_wf K h0 hK
      obtain ⟨tb, htb, -, hib, -⟩ := three_byte_cycle K (init K) b0 b1 b2 hwf rfl hb0 hb1 hb2
      obtain ⟨tc, htc, -, hic, -⟩ := three_byte_cycle K (init K) c0 c1 c2 hwf rfl hc0 hc1 hc2
      obtain ⟨xb, yb, zb, hxb, hyb, hzb, hsplitb⟩ :=
        emitted_split K h0 hK [b0, b1, b2] bs' (by
          intro b hmem
          exact hb b (by simp at hmem ⊢; tauto)) (by simp)
      obtain ⟨xc, yc, zc, hxc, hyc, hzc, hsplitc⟩ :=
        emitted_split K h0 hK [c0, c1, c2] cs' (by
          intro b hmem
          exact hc b (by simp at hmem ⊢; tauto)) (by simp)
      have e1 : xb = tb := Except.ok.inj (hxb.symm.trans htb)
      have e2 : xc = tc := Except.ok.inj (hxc.symm.trans htc)
      have e3 : zb = sb := Except.ok.inj (hzb.symm.trans hsb)
      have e4 : zc = sc := Except.ok.inj (hzc.symm.trans hsc)
      rw [e1, e3, hib] at hsplitb
      rw [e2, e4, hic] at hsplitc
      rw [hsplitb, hsplitc] at heq
      simp only [init, List.nil_append, List.cons_append, List.cons.injEq] at heq
      obtain ⟨hv, hw, hrest⟩ := heq
      obtain ⟨r0, r1, r2⟩ := three_bytes_determined b0 b1 b2 c0 c1 c2 hb1 hb2 hc1 hc2 hv hw
      have htail := ih bs' cs' (by omega) (by omega)
        (fun b hmem => hb b (by simp [hmem])) (fun b hmem => hc b (by simp [hmem]))
        yb yc hyb hyc hrest
      rw [r0, r1, r2, htail]
    | [], _, hbl, _ => simp at hbl
    | [_], _, hbl, _ => simp at hbl; omega
    | [_, _], _, hbl, _ => simp at hbl; omega
    | _ :: _ :: _ :: _, [], _, hcl => simp at hcl
    | _ :: _ :: _ :: _, [_], _, hcl => simp at hcl; omega
    | _ :: _ :: _ :: _, [_, _], _, hcl => simp at hcl; omega

/-! The claims about the unpacker, the tracker and the readouts. -/

/-- C1: from the initial state, unpack_bytes fed the bytes one at a time calls insert with
exactly the complete 12-bit groups of the big-endian bit stream, in order: the i-th value
is floor(N / 2^(8n - 12(i+1))) mod 4096; and the bytes AB CD EF give ABC then DEF. -/
theorem unpack_emits_big_endian_groups (K : Nat) (bytes : List Nat) (h0 : 0 < K) (hK : K ≤ 255)
    (hb : ∀ b ∈ bytes, b < 256) :
    (∃ s, read_file K (init K) bytes = .ok s ∧
      s.inserted = (List.range (8 * bytes.length / 12)).map
        (fun i => big_endian bytes / 2 ^ (8 * bytes.length - 12 * (i + 1)) % 4096)) ∧
    (∃ s, read_file K (init K) [0xAB, 0xCD, 0xEF] = .ok s ∧ s.inserted = [0xABC, 0xDEF]) := by
  constructor
  · obtain ⟨s, hs, -, -, -, hi⟩ := read_file_state K h0 hK bytes hb
    exact ⟨s, hs, hi⟩
  · obtain ⟨s, hs, -, -, -, hi⟩ := read_file_state K h0 hK [0xAB, 0xCD, 0xEF] (by decide)
    refine ⟨s, hs, ?_⟩
    rw [hi]
    decide

theorem unpack_emits_big_endian_groups_witness :
    (0 < TOP_K ∧ TOP_K ≤ 255 ∧ ∀ b ∈ [0x12, 0x34, 0x56, 0x78, 0x9A], b < 256) ∧
    (∃ s, read_file TOP_K (init TOP_K) [0x12, 0x34, 0x56, 0x78, 0x9A] = .ok s ∧
      s.inserted = [0x123, 0x456, 0x789]) := by
  refine ⟨by decide, ?_⟩
  obtain ⟨s, hs, hi⟩ :=
    (unpack_emits_big_endian_groups TOP_K [0x12, 0x34, 0x56, 0x78, 0x9A]
      (by decide) (by decide) (by decide)).1
  exact ⟨s, hs, hi.trans (by decide)⟩

/-- C2 (the code departs from it): past capacity the Top-K readout is not the K largest
values in ascending order. With TOP_K = 32, the values 10, 20, .., 320 followed by 15 leave
20, 15, 30, .., 320, while the 32 largest in ascending order are 15, 20, 30, .., 320; with
K = 3 the values 5 1 9 2 8 3 leave 9 3 8, not 5 8 9. -/
theorem top_readout_past_capacity :
    (insert_all TOP_K (init TOP_K) [10, 20, 30, 40, 50, 60, 70, 80, 90, 100, 110, 120, 130, 140,
        150, 160, 170, 180, 190, 200, 210, 220, 230, 240, 250, 260, 270, 280, 290, 300, 310,
        320, 15]).map (top_readout TOP_K)
      = .ok [20, 15, 30, 40, 50, 60, 70, 80, 90, 100, 110, 120, 130, 140, 150, 160, 170, 180,
        190, 200, 210, 220, 230, 240, 250, 260, 270, 280, 290, 300, 310, 320] ∧
    (List.insertionSort (· ≤ ·) [10, 20, 30, 40, 50, 60, 70, 80, 90, 100, 110, 120, 130, 140,
        150, 160, 170, 180, 190, 200, 210, 220, 230, 240, 250, 260, 270, 280, 290, 300, 310,
        320, 15]).drop (33 - min 32 33)
      = [15, 20, 30, 40, 50, 60, 70, 80, 90, 100, 110, 120, 130, 140, 150, 160, 170, 180,
        190, 200, 210, 220, 230, 240, 250, 260, 270, 280, 290, 300, 310, 320] ∧
    (insert_all 3 (init 3) [5, 1, 9, 2, 8, 3]).map (top_readout 3) = .ok [9, 3, 8] ∧
    (List.insertionSort (· ≤ ·) [5, 1, 9, 2, 8, 3]).drop (6 - min 3 6) = [5, 8, 9] := by
  refine ⟨by decide, by decide, by decide, by decide⟩

/-- C3: after any values from the initial tracker, the Last-K readout of main is the final
min(K, n) values in arrival order; K = 3 and 5 1 9 2 8 3 give 2 8 3. -/
theorem last_readout_is_latest_values (K : Nat) (vals : List Nat) (h0 : 0 < K) (hK : K ≤ 255) :
    ∃ s, insert_all K (init K) vals = .ok s ∧
      last_readout K s = vals.drop (vals.length - min K vals.length) := by
  obtain ⟨s, hs, hwf, hc, hl, hA, hB⟩ := last_window K h0 hK vals
  refine ⟨s, hs, ?_⟩
  unfold last_readout printed
  rcases Nat.lt_or_ge vals.length K with hlt | hge
  · have hcn : s.curr_idx = vals.length := by omega
    have hm : vals.length - min K vals.length = 0 := by omega
    rw [if_pos (by omega), hcn, hm, List.drop_zero, List.drop_zero, hA hlt]
  · have hcn : s.curr_idx = K := by omega
    have hm : min K vals.length = K := by omega
    have hfull : List.take K s.last_values = s.last_values :=
      List.take_of_length_le (by rw [hwf.last_len])
    rw [if_neg (by omega), hm, hfull, List.drop_zero, hB hge]

theorem last_readout_is_latest_values_witness :
    (0 < 3 ∧ 3 ≤ 255) ∧
    ∃ s, insert_all 3 (init 3) [5, 1, 9, 2, 8, 3] = .ok s ∧ last_readout 3 s = [2, 8, 3] :=
  ⟨by decide, last_readout_is_latest_values 3 [5, 1, 9, 2, 8, 3] (by decide) (by decide)⟩

/-- C4 (the code departs from it): the program run on the 51-byte file that packs the
values 10, 20, .., 320, 15, 0 ends with top_values = 20, 15, 30, .., 320, which is not in
non-decreasing order. -/
theorem top_values_unsorted_after_file :
    (read_file TOP_K (init TOP_K) [0, 160, 20, 1, 224, 40, 3, 32, 60, 4, 96, 80, 5, 160, 100, 6,
        224, 120, 8, 32, 140, 9, 96, 160, 10, 160, 180, 11, 224, 200, 13, 32, 220, 14, 96, 240, 15,
        161, 4, 16, 225, 24, 18, 33, 44, 19, 97, 64, 0, 240, 0]).map
        (fun s => (s.inserted, s.curr_idx, top_readout TOP_K s))
      = .ok ([10, 20, 30, 40, 50, 60, 70, 80, 90, 100, 110, 120, 130, 140, 150, 160, 170, 180,
          190, 200, 210, 220, 230, 240, 250, 260, 270, 280, 290, 300, 310, 320, 15, 0], 32,
        [20, 15, 30, 40, 50, 60, 70, 80, 90, 100, 110, 120, 130, 140, 150, 160, 170, 180,
          190, 200, 210, 220, 230, 240, 250, 260, 270, 280, 290, 300, 310, 320]) ∧
    ¬ List.Sorted (· ≤ ·) [20, 15, 30, 40, 50, 60, 70, 80, 90, 100, 110, 120, 130, 140, 150,
      160, 170, 180, 190, 200, 210, 220, 230, 240, 250, 260, 270, 280, 290, 300, 310, 320] := by
  refine ⟨by decide, by decide⟩

/-- C5: from the initial state the number of values emitted for n bytes is floor(8n / 12);
pending bits emit nothing, so the one-byte stream FF emits no value. -/
theorem emitted_count_is_whole_groups (K : Nat) (bytes : List Nat) (h0 : 0 < K) (hK : K ≤ 255)
    (hb : ∀ b ∈ bytes, b < 256) :
    (∃ s, read_file K (init K) bytes = .ok s ∧ s.inserted.length = 8 * bytes.length / 12) ∧
    (∃ s, read_file K (init K) [0xFF] = .ok s ∧ s.inserted = [] ∧ s.bits_msb = 8) := by
  constructor
  · obtain ⟨s, hs, -, -, -, hi⟩ := read_file_state K h0 hK bytes hb
    exact ⟨s, hs, by rw [hi]; simp⟩
  · exact ⟨_, rfl, rfl, rfl⟩

theorem emitted_count_is_whole_groups_witness :
    (0 < TOP_K ∧ TOP_K ≤ 255 ∧ ∀ b ∈ [0xAB, 0xCD, 0xEF, 0x01], b < 256) ∧
    (∃ s, read_file TOP_K (init TOP_K) [0xAB, 0xCD, 0xEF, 0x01] = .ok s ∧
      s.inserted.length = 2) ∧
    (∃ s, read_file TOP_K (init TOP_K) [0xFF] = .ok s ∧ s.inserted = [] ∧ s.bits_msb = 8) :=
  ⟨by decide, emitted_count_is_whole_groups TOP_K [0xAB, 0xCD, 0xEF, 0x01]
    (by decide) (by decide) (by decide)⟩

/-- C6: after n values from the empty tracker curr_idx is min(K, n); each further insert
adds one to it while it is below K and leaves it alone once it is K. -/
theorem curr_idx_counts_up_to_capacity (K : Nat) (vals : List Nat) (h0 : 0 < K) (hK : K ≤ 255) :
    ∃ s, insert_all K (init K) vals = .ok s ∧ s.curr_idx = min K vals.length ∧
      ∀ v, ∃ t, insert K s v = .ok t ∧
        t.curr_idx = if s.curr_idx < K then s.curr_idx + 1 else s.curr_idx := by
  obtain ⟨s, hs, hwf, -, -, -, hc⟩ := insert_all_wf K vals (init K) (init_wf K h0 hK)
  refine ⟨s, hs, ?_, ?_⟩
  · rw [hc]; simp only [init, Nat.zero_add]; exact Nat.min_comm _ _
  · intro v
    obtain ⟨t, ht, -, -, -, -, htc, -⟩ := insert_wf_next K s v hwf
    refine ⟨t, ht, ?_⟩
    have := hwf.curr_le
    rw [htc]
    split_ifs <;> omega

theorem curr_idx_counts_up_to_capacity_witness :
    (0 < 3 ∧ 3 ≤ 255) ∧
    ∃ s, insert_all 3 (init 3) [5, 1, 9, 2, 8, 3] = .ok s ∧ s.curr_idx = 3 ∧
      ∀ v, ∃ t, insert 3 s v = .ok t ∧
        t.curr_idx = if s.curr_idx < 3 then s.curr_idx + 1 else s.curr_idx :=
  ⟨by decide, curr_idx_counts_up_to_capacity 3 [5, 1, 9, 2, 8, 3] (by decide) (by decide)⟩

/-- C7: every value unpack_bytes passes to insert is below 4096, and in every state it
reaches the two expressions that build a value stay below 4096 before the conversion to
unsigned short, so that conversion never wraps. -/
theorem emitted_values_fit_twelve_bits (K : Nat) (bytes : List Nat) (byte : Nat) (h0 : 0 < K)
    (hK : K ≤ 255) (hb : ∀ b ∈ bytes, b < 256) (hbyte : byte < 256) :
    ∃ s, read_file K (init K) bytes = .ok s ∧ (∀ v ∈ s.inserted, v < 4096) ∧
      (s.bits_msb = 4 → (s.prev_msb <<< 8) ||| byte < 4096) ∧
      (s.bits_msb = 8 → (s.prev_msb <<< 4) ||| (byte >>> 4) < 4096) := by
  obtain ⟨s, hs, -, hbits, hprev, hi⟩ := read_file_state K h0 hK bytes hb
  refine ⟨s, hs, ?_, ?_, ?_⟩
  · intro v hv
    rw [hi, List.mem_map] at hv
    obtain ⟨i, -, rfl⟩ := hv
    exact Nat.mod_lt _ (by decide)
  · intro h4
    rw [h4] at hprev
    have hp : s.prev_msb = big_endian bytes % 16 := hprev
    rw [pack_low_byte _ _ hbyte, hp]
    omega
  · intro h8
    rw [h8] at hprev
    have hp : s.prev_msb = big_endian bytes % 256 := hprev
    rw [pack_low_nibble _ _ hbyte, hp]
    omega

theorem emitted_values_fit_twelve_bits_witness :
    (0 < TOP_K ∧ TOP_K ≤ 255 ∧ (∀ b ∈ [0xFF, 0xFF, 0xFF, 0xFF], b < 256) ∧ 0xFF < 256) ∧
    ∃ s, read_file TOP_K (init TOP_K) [0xFF, 0xFF, 0xFF, 0xFF] = .ok s ∧
      (∀ v ∈ s.inserted, v < 4096) ∧
      (s.bits_msb = 4 → (s.prev_msb <<< 8) ||| 0xFF < 4096) ∧
      (s.bits_msb = 8 → (s.prev_msb <<< 4) ||| (0xFF >>> 4) < 4096) :=
  ⟨by decide, emitted_values_fit_twelve_bits TOP_K [0xFF, 0xFF, 0xFF, 0xFF] 0xFF
    (by decide) (by decide) (by decide) (by decide)⟩

/-- C8: when the Top-K array is full and the value is at most top_values[0], insert leaves
top_values and curr_idx as they were; the value only goes into the Last-K buffer. -/
theorem full_insert_discards_small_value (K : Nat) (s : Globals) (val : Nat)
    (hwf : tracker_wf K s) (hc : s.curr_idx = K) (hv : val ≤ s.top_values.getD 0 0) :
    ∃ t, insert K s val = .ok t ∧ t.top_values = s.top_values ∧ t.curr_idx = s.curr_idx ∧
      t.last_values = s.last_values.set s.last_idx val ∧ t.last_idx = (s.last_idx + 1) % K :=
  ⟨_, insert_full_reject K s val hwf hc hv, rfl, rfl, rfl, rfl⟩

theorem full_insert_discards_small_value_witness :
    (tracker_wf 3 state_three_of_three ∧
      state_three_of_three.curr_idx = 3 ∧
      1 ≤ state_three_of_three.top_values.getD 0 0) ∧
    ∃ t, insert 3 state_three_of_three 1 = .ok t ∧
      t.top_values = [1, 5, 9] ∧ t.curr_idx = 3 ∧
      t.last_values = [1, 1, 9] ∧ t.last_idx = 1 :=
  ⟨⟨⟨by decide, by decide, rfl, rfl, by decide, by decide⟩, rfl, by decide⟩,
    full_insert_discards_small_value 3 state_three_of_three 1
      ⟨by decide, by decide, rfl, rfl, by decide, by decide⟩ rfl (by decide)⟩

/-- C9: below capacity insert keeps the array sorted: n <= K values from the empty tracker
leave in top_values[0 .. n-1] the ascending sort of the values, and one insert on a tracker
holding fewer than K entries puts the value at the first index whose entry is not smaller,
moving the later entries up by one. -/
theorem below_capacity_insert_sorts (K : Nat) (vals : List Nat) (s : Globals) (val : Nat)
    (h0 : 0 < K) (hK : K ≤ 255) (hn : vals.length ≤ K) (hwf : tracker_wf K s)
    (hc : s.curr_idx < K) :
    (∃ r, insert_all K (init K) vals = .ok r ∧ r.curr_idx = vals.length ∧
      top_readout K r = vals.insertionSort (· ≤ ·) ∧
      (top_readout K r).Sorted (· ≤ ·) ∧ (top_readout K r).Perm vals) ∧
    (∃ t, insert K s val = .ok t ∧ t.curr_idx = s.curr_idx + 1 ∧
      top_readout K t = (top_readout K s).takeWhile (fun e => decide (e < val))
        ++ val :: (top_readout K s).dropWhile (fun e => decide (e < val))) := by
  constructor
  · obtain ⟨r, hr, -, hc, ht⟩ := below_capacity_sorted K h0 hK vals hn
    refine ⟨r, hr, hc, ht, ?_, ?_⟩
    · rw [ht]; exact List.sorted_insertionSort _ _
    · rw [ht]; exact List.perm_insertionSort _ _
  · refine ⟨_, insert_below K s val hwf hc, rfl, ?_⟩
    have hlen := hwf.top_len
    rw [top_readout_eq K s hwf.curr_le, top_readout_eq K _ (by show s.curr_idx + 1 ≤ K; omega),
      ← orderedInsert_splice]
    show List.take (s.curr_idx + 1) (List.orderedInsert (· ≤ ·) val
      (s.top_values.take s.curr_idx) ++ s.top_values.drop (s.curr_idx + 1)) = _
    have hl : (List.orderedInsert (· ≤ ·) val (s.top_values.take s.curr_idx)).length
        = s.curr_idx + 1 := by
      simp [List.orderedInsert_length]; omega
    rw [List.take_append_of_le_length (by omega), List.take_of_length_le (by omega)]

theorem below_capacity_insert_sorts_witness :
    (0 < 3 ∧ 3 ≤ 255 ∧ [5, 1, 9].length ≤ 3 ∧
      tracker_wf 3 state_two_of_three ∧ state_two_of_three.curr_idx < 3) ∧
    (∃ r, insert_all 3 (init 3) [5, 1, 9] = .ok r ∧ r.curr_idx = 3 ∧
      top_readout 3 r = [1, 5, 9] ∧
      (top_readout 3 r).Sorted (· ≤ ·) ∧ (top_readout 3 r).Perm [5, 1, 9]) ∧
    (∃ t, insert 3 state_two_of_three 4 = .ok t ∧ t.curr_idx = 3 ∧
      top_readout 3 t = [2, 4, 6]) :=
  ⟨⟨by decide, by decide, by decide,
      ⟨by decide, by decide, rfl, rfl, by decide, by decide⟩, by decide⟩,
    below_capacity_insert_sorts 3 [5, 1, 9] state_two_of_three 4
      (by decide) (by decide) (by decide)
      ⟨by decide, by decide, rfl, rfl, by decide, by decide⟩ (by decide)⟩

/-- C10 (the code departs from it): on the full sorted array 1, 3, 5, .., 63 the call
insert(4) finds index 2, moves 3 and 5 down and stores 4 at index 2, not at index 1: the
array becomes 3, 5, 4, 7, .., 63, which has 32 entries but is not sorted. -/
theorem full_insert_stores_at_found_index :
    (insert_all TOP_K (init TOP_K) [1, 3, 5, 7, 9, 11, 13, 15, 17, 19, 21, 23, 25, 27, 29, 31, 33,
        35, 37, 39, 41, 43, 45, 47, 49, 51, 53, 55, 57, 59, 61, 63]).map
        (fun s => (s.curr_idx, s.top_values))
      = .ok (32, [1, 3, 5, 7, 9, 11, 13, 15, 17, 19, 21, 23, 25, 27, 29, 31, 33,
        35, 37, 39, 41, 43, 45, 47, 49, 51, 53, 55, 57, 59, 61, 63]) ∧
    find_position [1, 3, 5, 7, 9, 11, 13, 15, 17, 19, 21, 23, 25, 27, 29, 31, 33,
        35, 37, 39, 41, 43, 45, 47, 49, 51, 53, 55, 57, 59, 61, 63] 32 4 loop_fuel 0 = .ok 2 ∧
    (insert_all TOP_K (init TOP_K) [1, 3, 5, 7, 9, 11, 13, 15, 17, 19, 21, 23, 25, 27, 29, 31, 33,
        35, 37, 39, 41, 43, 45, 47, 49, 51, 53, 55, 57, 59, 61, 63, 4]).map
        (fun s => (s.curr_idx, s.top_values))
      = .ok (32, [3, 5, 4, 7, 9, 11, 13, 15, 17, 19, 21, 23, 25, 27, 29, 31, 33,
        35, 37, 39, 41, 43, 45, 47, 49, 51, 53, 55, 57, 59, 61, 63]) ∧
    ¬ List.Sorted (· ≤ ·) [3, 5, 4, 7, 9, 11, 13, 15, 17, 19, 21, 23, 25, 27, 29, 31, 33,
        35, 37, 39, 41, 43, 45, 47, 49, 51, 53, 55, 57, 59, 61, 63] := by
  refine ⟨by decide, by decide, by decide, by decide⟩

/-- C11: every call of insert on a tracker in range, whichever way the Top-K part goes,
returns having written the value into last_values[last_idx] and nothing else of last_values,
and having moved last_idx to (last_idx + 1) mod K. -/
theorem insert_records_in_last_values (K : Nat) (s : Globals) (val : Nat)
    (hwf : tracker_wf K s) :
    ∃ t, insert K s val = .ok t ∧
      t.last_values = s.last_values.set s.last_idx val ∧
      t.last_values.length = s.last_values.length ∧
      t.last_values.getD s.last_idx 0 = val ∧
      (∀ i, i ≠ s.last_idx → t.last_values.getD i 0 = s.last_values.getD i 0) ∧
      t.last_idx = (s.last_idx + 1) % K := by
  obtain ⟨t, ht, -, -, -, -, -, hl, hi⟩ := insert_wf_next K s val hwf
  have hlt : s.last_idx < s.last_values.length := by rw [hwf.last_len]; exact hwf.last_lt
  refine ⟨t, ht, hl, ?_, ?_, ?_, hi⟩
  · rw [hl, List.length_set]
  · rw [hl]
    simp [List.getD, List.getElem?_set, hlt]
  · intro i hne
    rw [hl]
    simp [List.getD, List.getElem?_set, Ne.symm hne]

theorem insert_records_in_last_values_witness :
    tracker_wf 3 state_three_of_three ∧
    ∃ t, insert 3 state_three_of_three 7 = .ok t ∧
      t.last_values = [7, 1, 9] ∧
      t.last_values.length = 3 ∧
      t.last_values.getD 0 0 = 7 ∧
      (∀ i, i ≠ 0 → t.last_values.getD i 0 = [5, 1, 9].getD i 0) ∧
      t.last_idx = 1 :=
  ⟨⟨by decide, by decide, rfl, rfl, by decide, by decide⟩,
    insert_records_in_last_values 3 state_three_of_three 7
      ⟨by decide, by decide, rfl, rfl, by decide, by decide⟩⟩

/-- C12 as stated fails: with TOP_K = 32, after the 32 values 10, 20, .., 320 the call
insert(5) leaves the Top-K array as it was, so no entry was replaced by 5. -/
theorem full_top_keeps_all_on_small_value :
    ∃ s t, insert_all TOP_K (init TOP_K) [10, 20, 30, 40, 50, 60, 70, 80, 90, 100, 110, 120,
        130, 140, 150, 160, 170, 180, 190, 200, 210, 220, 230, 240, 250, 260, 270, 280, 290,
        300, 310, 320] = .ok s ∧
      insert TOP_K s 5 = .ok t ∧ s.curr_idx = TOP_K ∧
      top_readout TOP_K t = top_readout TOP_K s ∧
      ¬ ∃ x, (top_readout TOP_K t).Perm (5 :: (top_readout TOP_K s).erase x) := by
  refine ⟨_, _, rfl, rfl, rfl, rfl, ?_⟩
  rintro ⟨x, hx⟩
  have h5 := hx.symm.subset (List.mem_cons_self 5 _)
  revert h5
  decide

/-- C12 amended: once K or more values have gone in, both readouts hold K entries and keep
holding K after a further insert; the Last-K readout loses its oldest entry and gains the
value; the Top-K readout loses top_values[0] and gains the value when the value is greater
than top_values[0], and is left as it was otherwise. -/
theorem full_collections_evict_one (K : Nat) (vals : List Nat) (v : Nat) (h0 : 0 < K)
    (hK : K ≤ 255) (hn : K ≤ vals.length) :
    ∃ s t, insert_all K (init K) vals = .ok s ∧ insert K s v = .ok t ∧
      (top_readout K s).length = K ∧ (last_readout K s).length = K ∧
      (top_readout K t).length = K ∧ (last_readout K t).length = K ∧
      last_readout K t = (last_readout K s).drop 1 ++ [v] ∧
      (s.top_values.getD 0 0 < v →
        top_readout K s = s.top_values.getD 0 0 :: (top_readout K s).tail ∧
        (top_readout K t).Perm (v :: (top_readout K s).tail)) ∧
      (v ≤ s.top_values.getD 0 0 → top_readout K t = top_readout K s) := by
  obtain ⟨s, hs, hwf, -, -, -, hc⟩ := insert_all_wf K vals (init K) (init_wf K h0 hK)
  have hcs : s.curr_idx = K := by rw [hc]; simp only [init, Nat.zero_add]; omega
  obtain ⟨t, ht, hwft, hcase⟩ := top_readout_step K s v hwf
  obtain ⟨t', ht', -, -, -, -, htc, hlv, hli⟩ := insert_wf_next K s v hwf
  rw [ht] at ht'
  have htt := Except.ok.inj ht'
  subst htt
  have hct : t.curr_idx = K := by rw [htc, hcs]; omega
  have hlen : s.last_idx < s.last_values.length := by rw [hwf.last_len]; exact hwf.last_lt
  have hrot := rotate_step s.last_values s.last_idx v hlen
  rw [hwf.last_len] at hrot
  have hls : last_readout K s = s.last_values.drop s.last_idx ++ s.last_values.take s.last_idx :=
    full_last_readout_eq K s hwf hcs
  have hlt : last_readout K t = (last_readout K s).drop 1 ++ [v] := by
    rw [full_last_readout_eq K t hwft hct, hls, hli, hlv, hrot]
  have hlsl : (last_readout K s).length = K := by
    rw [hls]
    have := hwf.last_len
    simp
    omega
  refine ⟨s, t, hs, ht, ?_, hlsl, ?_, ?_, hlt, ?_, ?_⟩
  · rw [full_readout_eq K s hwf hcs, hwf.top_len]
  · rw [full_readout_eq K t hwft hct, hwft.top_len]
  · rw [hlt]
    simp
    omega
  · intro hv
    rcases hcase with ⟨hlt', -⟩ | ⟨-, hle, -⟩ | ⟨-, -, hp⟩
    · omega
    · omega
    · refine ⟨?_, hp⟩
      rw [full_readout_eq K s hwf hcs]
      exact head_cons_tail s.top_values (by rw [hwf.top_len]; exact h0)
  · intro hv
    rcases hcase with ⟨hlt', -⟩ | ⟨-, -, he⟩ | ⟨-, hgt, -⟩
    · omega
    · exact he
    · omega

theorem full_collections_evict_one_witness :
    (0 < 3 ∧ 3 ≤ 255 ∧ 3 ≤ [5, 1, 9, 2].length) ∧
    ∃ s t, insert_all 3 (init 3) [5, 1, 9, 2] = .ok s ∧ insert 3 s 7 = .ok t ∧
      (top_readout 3 s).length = 3 ∧ (last_readout 3 s).length = 3 ∧
      (top_readout 3 t).length = 3 ∧ (last_readout 3 t).length = 3 ∧
      last_readout 3 t = (last_readout 3 s).drop 1 ++ [7] ∧
      (s.top_values.getD 0 0 < 7 →
        top_readout 3 s = s.top_values.getD 0 0 :: (top_readout 3 s).tail ∧
        (top_readout 3 t).Perm (7 :: (top_readout 3 s).tail)) ∧
      (7 ≤ s.top_values.getD 0 0 → top_readout 3 t = top_readout 3 s) :=
  ⟨by decide, full_collections_evict_one 3 [5, 1, 9, 2] 7 (by decide) (by decide) (by decide)⟩

/-- C13: after n bytes from the initial state bits_msb is 8n mod 12, one of 0, 4, 8, and
prev_msb is below 2^bits_msb (0, at most 15, at most 255); so the next byte always takes
one of the three branches of unpack_bytes, which changes bits_msb. -/
theorem unpacker_state_is_valid (K : Nat) (bytes : List Nat) (h0 : 0 < K) (hK : K ≤ 255)
    (hb : ∀ b ∈ bytes, b < 256) :
    ∃ s, read_file K (init K) bytes = .ok s ∧
      s.bits_msb = 8 * bytes.length % 12 ∧
      (s.bits_msb = 0 ∨ s.bits_msb = 4 ∨ s.bits_msb = 8) ∧
      s.prev_msb < 2 ^ s.bits_msb ∧
      (s.bits_msb = 0 → s.prev_msb = 0) ∧
      (s.bits_msb = 4 → s.prev_msb ≤ 15) ∧
      (s.bits_msb = 8 → s.prev_msb ≤ 255) ∧
      ∀ b, ∃ t, unpack_bytes K s b = .ok t ∧ t.bits_msb ≠ s.bits_msb := by
  obtain ⟨s, hs, hwf, hbits, hprev, -⟩ := read_file_state K h0 hK bytes hb
  have hcases : s.bits_msb = 0 ∨ s.bits_msb = 4 ∨ s.bits_msb = 8 := by rw [hbits]; omega
  have hlt : s.prev_msb < 2 ^ s.bits_msb := by
    rw [hprev]
    exact Nat.mod_lt _ (Nat.two_pow_pos _)
  refine ⟨s, hs, hbits, hcases, hlt, ?_, ?_, ?_, ?_⟩
  · intro h
    rw [h] at hlt
    simpa using hlt
  · intro h
    rw [h] at hlt
    exact Nat.le_of_lt_succ hlt
  · intro h
    rw [h] at hlt
    exact Nat.le_of_lt_succ hlt
  · intro b
    obtain ⟨t, ht, -, t0, t4, t8, -⟩ := unpack_bytes_step K s b hwf
    refine ⟨t, ht, ?_⟩
    rcases hcases with h | h | h
    · rw [(t0 h).1, h]; decide
    · rw [(t4 h).1, h]; decide
    · rw [(t8 h).1, h]; decide

theorem unpacker_state_is_valid_witness :
    (0 < TOP_K ∧ TOP_K ≤ 255 ∧ ∀ b ∈ [0xAB, 0xCD, 0xEF, 0x12, 0x34], b < 256) ∧
    ∃ s, read_file TOP_K (init TOP_K) [0xAB, 0xCD, 0xEF, 0x12, 0x34] = .ok s ∧
      s.bits_msb = 4 ∧
      (s.bits_msb = 0 ∨ s.bits_msb = 4 ∨ s.bits_msb = 8) ∧
      s.prev_msb < 2 ^ s.bits_msb ∧
      (s.bits_msb = 0 → s.prev_msb = 0) ∧
      (s.bits_msb = 4 → s.prev_msb ≤ 15) ∧
      (s.bits_msb = 8 → s.prev_msb ≤ 255) ∧
      ∀ b, ∃ t, unpack_bytes TOP_K s b = .ok t ∧ t.bits_msb ≠ s.bits_msb :=
  ⟨by decide, unpacker_state_is_valid TOP_K [0xAB, 0xCD, 0xEF, 0x12, 0x34] (by decide)
    (by decide) (by decide)⟩

/-- C14: three bytes b0 b1 b2 fed to unpack_bytes in a state with bits_msb = 0 emit exactly
(b0 << 4) | (b1 >> 4) and ((b1 & 15) << 8) | b2 and leave bits_msb = 0, prev_msb = 0; and
when the length of bs is a multiple of 3 the values emitted for bs followed by cs are the
values emitted for bs followed by the values emitted for cs. -/
theorem unpacker_period_three_bytes (K : Nat) (s : Globals) (b0 b1 b2 : Nat)
    (bs cs : List Nat) (hwf : tracker_wf K s) (hs : s.bits_msb = 0)
    (h0 : b0 < 256) (h1 : b1 < 256) (h2 : b2 < 256)
    (hb : ∀ b ∈ bs, b < 256) (h3 : bs.length % 3 = 0) :
    (∃ t, read_file K s [b0, b1, b2] = .ok t ∧
      t.inserted = s.inserted ++ [(b0 <<< 4) ||| (b1 >>> 4), ((b1 &&& 15) <<< 8) ||| b2] ∧
      t.bits_msb = 0 ∧ t.prev_msb = 0) ∧
    (∃ sb sc sbc, read_file K (init K) bs = .ok sb ∧ read_file K (init K) cs = .ok sc ∧
      read_file K (init K) (bs ++ cs) = .ok sbc ∧
      sbc.inserted = sb.inserted ++ sc.inserted) := by
  constructor
  · obtain ⟨t, ht, -, hi, hbt, hpt⟩ := three_byte_cycle K s b0 b1 b2 hwf hs h0 h1 h2
    exact ⟨t, ht, hi, hbt, hpt⟩
  · exact emitted_split K hwf.K_pos hwf.K_small bs cs hb h3

theorem unpacker_period_three_bytes_witness :
    (tracker_wf TOP_K (init TOP_K) ∧ (init TOP_K).bits_msb = 0 ∧
      0xAB < 256 ∧ 0xCD < 256 ∧ 0xEF < 256 ∧
      (∀ b ∈ [0x12, 0x34, 0x56], b < 256) ∧ [0x12, 0x34, 0x56].length % 3 = 0) ∧
    (∃ t, read_file TOP_K (init TOP_K) [0xAB, 0xCD, 0xEF] = .ok t ∧
      t.inserted = (init TOP_K).inserted ++ [(0xAB <<< 4) ||| (0xCD >>> 4),
        ((0xCD &&& 15) <<< 8) ||| 0xEF] ∧
      t.bits_msb = 0 ∧ t.prev_msb = 0) ∧
    (∃ sb sc sbc, read_file TOP_K (init TOP_K) [0x12, 0x34, 0x56] = .ok sb ∧
      read_file TOP_K (init TOP_K) [0x78, 0x9A] = .ok sc ∧
      read_file TOP_K (init TOP_K) ([0x12, 0x34, 0x56] ++ [0x78, 0x9A]) = .ok sbc ∧
      sbc.inserted = sb.inserted ++ sc.inserted) :=
  ⟨⟨init_wf TOP_K (by decide) (by decide), rfl, by decide, by decide, by decide, by decide,
      by decide⟩,
    unpacker_period_three_bytes TOP_K (init TOP_K) 0xAB 0xCD 0xEF [0x12, 0x34, 0x56]
      [0x78, 0x9A] (init_wf TOP_K (by decide) (by decide)) rfl (by decide) (by decide)
      (by decide) (by decide) (by decide)⟩

/-- C15: in every state reached from the initial one by calls of insert the arrays have K
slots, curr_idx <= K and last_idx < K, and a further call of insert returns: none of its
array accesses is outside 0 .. K-1 (such an access is a fault of load or store) and each of
its loops stops (a loop still running after 256 rounds is a fault). -/
theorem tracker_indices_in_range (K : Nat) (vals : List Nat) (v : Nat) (h0 : 0 < K)
    (hK : K ≤ 255) :
    ∃ s t, insert_all K (init K) vals = .ok s ∧
      s.top_values.length = K ∧ s.last_values.length = K ∧
      s.curr_idx ≤ K ∧ s.last_idx < K ∧
      insert K s v = .ok t ∧
      (∀ e, insert K s v ≠ .error e) ∧
      (∀ i x, K ≤ i →
        load s.top_values i = .error .index_out_of_bounds ∧
        store s.top_values i x = .error .index_out_of_bounds ∧
        store s.last_values i x = .error .index_out_of_bounds) := by
  obtain ⟨s, hs, hwf, -⟩ := insert_all_wf K vals (init K) (init_wf K h0 hK)
  obtain ⟨t, ht, -⟩ := insert_wf_next K s v hwf
  refine ⟨s, t, hs, hwf.top_len, hwf.last_len, hwf.curr_le, hwf.last_lt, ht, ?_, ?_⟩
  · intro e he
    rw [ht] at he
    cases he
  · intro i x hi
    have h1 := hwf.top_len
    have h2 := hwf.last_len
    refine ⟨?_, ?_, ?_⟩
    · have : s.top_values[i]? = none := List.getElem?_eq_none (by omega)
      simp [load, this]
    · simp [store]; omega
    · simp [store]; omega

theorem tracker_indices_in_range_witness :
    (0 < TOP_K ∧ TOP_K ≤ 255) ∧
    ∃ s t, insert_all TOP_K (init TOP_K) [5, 1, 9, 2, 8, 3] = .ok s ∧
      s.top_values.length = TOP_K ∧ s.last_values.length = TOP_K ∧
      s.curr_idx ≤ TOP_K ∧ s.last_idx < TOP_K ∧
      insert TOP_K s 4 = .ok t ∧
      (∀ e, insert TOP_K s 4 ≠ .error e) ∧
      (∀ i x, TOP_K ≤ i →
        load s.top_values i = .error .index_out_of_bounds ∧
        store s.top_values i x = .error .index_out_of_bounds ∧
        store s.last_values i x = .error .index_out_of_bounds) :=
  ⟨by decide, tracker_indices_in_range TOP_K [5, 1, 9, 2, 8, 3] 4 (by decide) (by decide)⟩

/-- C16: the Top-K readout is always a sub-multiset of the values passed to insert, and an
insert on a full array with a value greater than top_values[0] takes out exactly that
entry and puts in the value. -/
theorem top_readout_from_inserted (K : Nat) (vals : List Nat) (s : Globals) (v : Nat)
    (h0 : 0 < K) (hK : K ≤ 255) (hwf : tracker_wf K s) (hc : s.curr_idx = K)
    (hv : s.top_values.getD 0 0 < v) :
    (∃ r, insert_all K (init K) vals = .ok r ∧ (top_readout K r).Subperm vals) ∧
    (∃ t, insert K s v = .ok t ∧
      top_readout K s = s.top_values.getD 0 0 :: (top_readout K s).tail ∧
      (top_readout K t).Perm (v :: (top_readout K s).tail)) := by
  constructor
  · obtain ⟨r, hr, -, hsub, -⟩ := top_readout_within K h0 hK vals
    exact ⟨r, hr, hsub⟩
  · obtain ⟨t, ht, -, hcase⟩ := top_readout_step K s v hwf
    refine ⟨t, ht, ?_, ?_⟩
    · rw [full_readout_eq K s hwf hc]
      exact head_cons_tail s.top_values (by rw [hwf.top_len]; exact h0)
    · rcases hcase with ⟨hlt, -⟩ | ⟨-, hle, -⟩ | ⟨-, -, hp⟩
      · omega
      · omega
      · exact hp

theorem top_readout_from_inserted_witness :
    (0 < 3 ∧ 3 ≤ 255 ∧ tracker_wf 3 state_three_of_three ∧
      state_three_of_three.curr_idx = 3 ∧ state_three_of_three.top_values.getD 0 0 < 7) ∧
    (∃ r, insert_all 3 (init 3) [5, 1, 9, 2, 8, 3] = .ok r ∧
      (top_readout 3 r).Subperm [5, 1, 9, 2, 8, 3]) ∧
    (∃ t, insert 3 state_three_of_three 7 = .ok t ∧
      top_readout 3 state_three_of_three = 1 :: [5, 9] ∧
      (top_readout 3 t).Perm (7 :: [5, 9])) :=
  ⟨⟨by decide, by decide, ⟨by decide, by decide, rfl, rfl, by decide, by decide⟩, rfl,
      by decide⟩,
    top_readout_from_inserted 3 [5, 1, 9, 2, 8, 3] state_three_of_three 7 (by decide)
      (by decide) ⟨by decide, by decide, rfl, rfl, by decide, by decide⟩ rfl (by decide)⟩

/-- C17: after the values vals have been passed to insert from the empty tracker, a value
of vals that is at least every value of vals is among the entries of the Top-K readout. -/
theorem largest_value_is_kept (K : Nat) (vals : List Nat) (m : Nat) (h0 : 0 < K)
    (hK : K ≤ 255) (hm : m ∈ vals) (hmax : ∀ x ∈ vals, x ≤ m) :
    ∃ s, insert_all K (init K) vals = .ok s ∧ m ∈ top_readout K s := by
  obtain ⟨s, hs, -, hsub, hdom⟩ := top_readout_within K h0 hK vals
  refine ⟨s, hs, ?_⟩
  obtain ⟨y, hy, hmy⟩ := hdom m hm
  have hym : y ≤ m := hmax y (hsub.subset hy)
  have : y = m := le_antisymm hym hmy
  rw [← this]
  exact hy

theorem largest_value_is_kept_witness :
    (0 < 3 ∧ 3 ≤ 255 ∧ 9 ∈ [5, 1, 9, 2, 8, 3] ∧ ∀ x ∈ [5, 1, 9, 2, 8, 3], x ≤ 9) ∧
    ∃ s, insert_all 3 (init 3) [5, 1, 9, 2, 8, 3] = .ok s ∧ 9 ∈ top_readout 3 s :=
  ⟨by decide, largest_value_is_kept 3 [5, 1, 9, 2, 8, 3] 9 (by decide) (by decide) (by decide)
    (by decide)⟩

/-- C18: two byte sequences of the same length, a multiple of 3, that make unpack_bytes
emit the same values from the initial state are the same sequence. -/
theorem unpack_whole_groups_lossless (K : Nat) (bs cs : List Nat) (h0 : 0 < K) (hK : K ≤ 255)
    (hb : ∀ b ∈ bs, b < 256) (hc : ∀ b ∈ cs, b < 256) (hlen : bs.length = cs.length)
    (h3 : bs.length % 3 = 0) :
    ∃ sb sc, read_file K (init K) bs = .ok sb ∧ read_file K (init K) cs = .ok sc ∧
      (sb.inserted = sc.inserted → bs = cs) := by
  obtain ⟨sb, hsb, -⟩ := read_file_state K h0 hK bs hb
  obtain ⟨sc, hsc, -⟩ := read_file_state K h0 hK cs hc
  refine ⟨sb, sc, hsb, hsc, ?_⟩
  intro heq
  exact whole_groups_injective K h0 hK (bs.length / 3) bs cs (by omega) (by omega) hb hc
    sb sc hsb hsc heq

theorem unpack_whole_groups_lossless_witness :
    (0 < TOP_K ∧ TOP_K ≤ 255 ∧ (∀ b ∈ [0xAB, 0xCD, 0xEF], b < 256) ∧
      (∀ b ∈ [0xAB, 0xCD, 0xEE], b < 256) ∧
      [0xAB, 0xCD, 0xEF].length = [0xAB, 0xCD, 0xEE].length ∧
      [0xAB, 0xCD, 0xEF].length % 3 = 0) ∧
    ∃ sb sc, read_file TOP_K (init TOP_K) [0xAB, 0xCD, 0xEF] = .ok sb ∧
      read_file TOP_K (init TOP_K) [0xAB, 0xCD, 0xEE] = .ok sc ∧
      (sb.inserted = sc.inserted → [0xAB, 0xCD, 0xEF] = [0xAB, 0xCD, 0xEE]) :=
  ⟨by decide, unpack_whole_groups_lossless TOP_K [0xAB, 0xCD, 0xEF] [0xAB, 0xCD, 0xEE]
    (by decide) (by decide) (by decide) (by decide) (by decide) (by decide)⟩

/-- C19 as stated fails: with TOP_K = 32, after the values 5, 7, 7 the call insert(7) is not
discarded and its scan stops at index 1, while entries equal to 7 sit at indices 1 and 2, so
the found index is not after every entry equal to the value. -/
theorem scan_stops_at_first_equal_entry :
    ∃ s, insert_all TOP_K (init TOP_K) [5, 7, 7] = .ok s ∧
      top_readout TOP_K s = [5, 7, 7] ∧ s.curr_idx < TOP_K ∧
      find_position s.top_values s.curr_idx 7 loop_fuel 0 = .ok 1 ∧
      s.top_values.getD 2 0 = 7 ∧
      ¬ (∀ i, i < s.curr_idx → s.top_values.getD i 0 = 7 → i < 1) := by
  refine ⟨_, rfl, by decide, by decide, by decide, by decide, ?_⟩
  intro h
  have := h 2 (by decide) (by decide)
  omega

/-- C19 amended: when the stored entries are sorted and the value equals one of them, the
scan that insert runs for a value it does not discard stops at the first entry equal to the
value: every entry before the found
index is smaller than the value, the entry at the found index equals it, and so every entry
equal to the value is at or after the found index. -/
theorem scan_index_before_equal_entries (K : Nat) (s : Globals) (val : Nat)
    (hwf : tracker_wf K s) (hs : (top_readout K s).Sorted (· ≤ ·))
    (hm : val ∈ top_readout K s) :
    ∃ j, find_position s.top_values s.curr_idx val loop_fuel 0 = .ok j ∧
      j < s.curr_idx ∧ s.top_values.getD j 0 = val ∧
      (∀ i, i < j → s.top_values.getD i 0 < val) ∧
      (∀ i, i < s.curr_idx → s.top_values.getD i 0 = val → j ≤ i) ∧
      ∃ t, insert K s val = .ok t := by
  have hlen := hwf.top_len
  have hcl := hwf.curr_le
  have hK := hwf.K_small
  rw [top_readout_eq K s hcl] at hs hm
  have hfp := find_position_ok s.top_values s.curr_idx val (by omega) (by omega) loop_fuel 0
    (by omega) (by unfold loop_fuel; omega)
  rw [Nat.zero_add, List.drop_zero] at hfp
  set l := s.top_values.take s.curr_idx with hl
  have hll : l.length = s.curr_idx := by rw [hl, List.length_take]; omega
  obtain ⟨h1, h2⟩ := first_equal_entry val l hs hm
  set j := (l.takeWhile (fun t => decide (t < val))).length with hj
  have hjc : j < s.curr_idx := by omega
  have hbefore : ∀ i, i < j → s.top_values.getD i 0 < val := by
    intro i hi
    have := before_scan_stop val l i hi
    rwa [hl, getD_take_lt _ _ _ (by omega)] at this
  obtain ⟨t, ht, -⟩ := insert_wf_next K s val hwf
  refine ⟨j, hfp, hjc, ?_, hbefore, ?_, t, ht⟩
  · rw [hl, getD_take_lt _ _ _ hjc] at h2
    exact h2
  · intro i _ hiv
    by_contra hlt
    have := hbefore i (by omega)
    omega

theorem scan_index_before_equal_entries_witness :
    (tracker_wf 3 state_three_of_three ∧
      (top_readout 3 state_three_of_three).Sorted (· ≤ ·) ∧
      5 ∈ top_readout 3 state_three_of_three) ∧
    ∃ j, find_position state_three_of_three.top_values state_three_of_three.curr_idx 5
        loop_fuel 0 = .ok j ∧
      j < state_three_of_three.curr_idx ∧ state_three_of_three.top_values.getD j 0 = 5 ∧
      (∀ i, i < j → state_three_of_three.top_values.getD i 0 < 5) ∧
      (∀ i, i < state_three_of_three.curr_idx →
        state_three_of_three.top_values.getD i 0 = 5 → j ≤ i) ∧
      ∃ t, insert 3 state_three_of_three 5 = .ok t :=
  ⟨⟨⟨by decide, by decide, rfl, rfl, by decide, by decide⟩, by decide, by decide⟩,
    scan_index_before_equal_entries 3 state_three_of_three 5
      ⟨by decide, by decide, rfl, rfl, by decide, by decide⟩ (by decide) (by decide)⟩

end EfficientBitReader
